import Mathlib

/-!
Verification of the fontgardener2 core against its specification.

The Rust sources are embedded shallowly:

* Rust `&str` / `String` values are `List Char` (the code only ever iterates
  `.chars()`, pushes characters, compares, splits and concatenates strings);
* `HashMap` values are association lists compared up to lookup;
* fallible code returns `Except`/`Option`;
* `f64` coordinate payloads are modelled as `Rat` — the code never computes
  with them, it only stores and moves them;
* external collaborators (the Unicode uppercase table used by
  `char::is_uppercase`, the glyphsinfo categorization lookup, the norad name
  validator) are parameters of the embedding, so every theorem quantifies
  over them.
-/

set_option maxRecDepth 10000

namespace FG

/-- Character sequence of a Rust string (the code iterates `.chars()`). -/
abbrev Str := List Char

/-- View a Lean string literal as its character list. -/
def str (s : String) : Str := s.data

/-! ## Filename codec, src/filenames.rs -/

/-- Model of `name_to_filename` (filenames.rs lines 3–16): every character
satisfying the uppercase predicate `u` (Rust `char::is_uppercase`) is followed
by `'_'`, a literal `'_'` is doubled, anything else passes through. -/
def name_to_filename (u : Char → Bool) : Str → Str
  | [] => []
  | c :: rest =>
    (if u c then [c, '_'] else if c = '_' then ['_', '_'] else [c]) ++
      name_to_filename u rest

/-- Loop of `filename_to_name` (filenames.rs lines 20–38); the two
arguments are `previous_char_was_uppercase` and
`previous_char_was_underscore`. -/
def filename_to_name_go (u : Char → Bool) : Bool → Bool → Str → Str
  | _, _, [] => []
  | pu, pus, c :: rest =>
    if c == '_' && (pu || pus) then filename_to_name_go u false false rest
    else c :: filename_to_name_go u (u c) (c == '_') rest

/-- Model of `filename_to_name` (filenames.rs lines 20–38). -/
def filename_to_name (u : Char → Bool) (f : Str) : Str :=
  filename_to_name_go u false false f

/-! ## Association lists

Rust `HashMap<String, _>` values are modelled as association lists; insertion
order is the program's insertion order, and maps are compared up to lookup
(Rust `HashMap` equality is key-set plus per-key value equality). -/

/-- Lookup by key. -/
def lookupAL {α : Type} : List (Str × α) → Str → Option α
  | [], _ => none
  | (k, v) :: rest, key => if k = key then some v else lookupAL rest key

/-- Model of `HashMap::contains_key`. -/
def containsKeyAL {α : Type} (l : List (Str × α)) (k : Str) : Bool :=
  (lookupAL l k).isSome

/-- Model of `HashMap::insert`: replace in place, or append a new binding. -/
def insertAL {α : Type} (k : Str) (v : α) : List (Str × α) → List (Str × α)
  | [] => [(k, v)]
  | (k', v') :: rest => if k' = k then (k, v) :: rest else (k', v') :: insertAL k v rest

/-- Model of `map.entry(k).or_default()` followed by in-place mutation `f`. -/
def updateAL {α : Type} (k : Str) (dflt : α) (f : α → α) : List (Str × α) → List (Str × α)
  | [] => [(k, f dflt)]
  | (k', v') :: rest => if k' = k then (k, f v') :: rest else (k', v') :: updateAL k dflt f rest

/-- Model of `map.entry(k).and_modify(f)`. -/
def modifyAL {α : Type} (k : Str) (f : α → α) : List (Str × α) → List (Str × α)
  | [] => []
  | (k', v') :: rest => if k' = k then (k, f v') :: rest else (k', v') :: modifyAL k f rest

/-! ## Data model, src/structs.rs

Coordinate payloads (`f64`) are modelled as `Rat`: the program stores and
copies them but never computes with them. -/

/-- Model of `PointType` (structs.rs). -/
inductive PointType
  | offCurve
  | move
  | line
  | curve
  | qCurve
deriving DecidableEq

/-- Model of `ContourPoint` (structs.rs). -/
structure ContourPoint where
  x : Rat
  y : Rat
  typ : PointType
  smooth : Bool
deriving DecidableEq

/-- Model of `Contour` (structs.rs). -/
structure Contour where
  points : List ContourPoint
deriving DecidableEq

/-- Model of `Anchor` (structs.rs). -/
structure Anchor where
  name : Str
  x : Rat
  y : Rat
deriving DecidableEq

/-- Model of `AffineTransformation` (structs.rs). -/
structure AffineTransformation where
  x_scale : Rat
  xy_scale : Rat
  yx_scale : Rat
  y_scale : Rat
  x_offset : Rat
  y_offset : Rat
deriving DecidableEq

/-- Model of `AffineTransformation::identity`, the `Default` instance. -/
def AffineTransformation.identity : AffineTransformation := ⟨1, 0, 0, 1, 0, 0⟩

/-- Model of `Component` (structs.rs). -/
structure Component where
  name : Str
  transformation : AffineTransformation
deriving DecidableEq

/-- Model of `Layer` (structs.rs). -/
structure Layer where
  anchors : List Anchor
  components : List Component
  contours : List Contour
  vertical_origin : Option Rat
  x_advance : Option Rat
  y_advance : Option Rat
deriving DecidableEq

/-- Model of `Layer::is_empty` (structs.rs lines 302–310): no anchors,
components or contours and neither advance (`vertical_origin` is not
consulted). -/
def Layer.is_empty (l : Layer) : Bool :=
  l.anchors.isEmpty && l.components.isEmpty && l.contours.isEmpty &&
    l.x_advance.isNone && l.y_advance.isNone

/-- Model of `OpenTypeCategory` (structs.rs). -/
inductive OpenTypeCategory
  | unassigned
  | base
  | ligature
  | mark
  | component
deriving DecidableEq

/-- Model of `Glyph` (structs.rs). -/
structure Glyph where
  codepoints : List Char
  layers : List (Str × Layer)
  opentype_category : OpenTypeCategory
  postscript_name : Option Str
  set : Option Str
deriving DecidableEq

/-- The `Glyph::default()` value. -/
def defaultGlyph : Glyph := ⟨[], [], .unassigned, none, none⟩

/-- Model of `Glyph::is_empty` (structs.rs lines 283–287). -/
def Glyph.is_empty (g : Glyph) : Bool :=
  g.layers.all fun p => p.2.is_empty

/-- Model of `Fontgarden` (structs.rs). -/
structure Fontgarden where
  glyphs : List (Str × Glyph)
deriving DecidableEq

/-- Pointwise relation on `Option`. -/
def optionRel {α β : Type} (r : α → β → Prop) : Option α → Option β → Prop
  | some a, some b => r a b
  | none, none => True
  | _, _ => False

/-- Equality of glyphs as Rust `PartialEq` sees them: field equality, with
the layer `HashMap` compared by lookup. -/
def glyphEquiv (a b : Glyph) : Prop :=
  a.codepoints = b.codepoints ∧ (∀ k, lookupAL a.layers k = lookupAL b.layers k) ∧
    a.opentype_category = b.opentype_category ∧ a.postscript_name = b.postscript_name ∧
    a.set = b.set

/-- Equality of projects as Rust `PartialEq` sees them. -/
def fgEquiv (a b : Fontgarden) : Prop :=
  ∀ k, optionRel glyphEquiv (lookupAL a.glyphs k) (lookupAL b.glyphs k)

/-- Equality of projects with glyph values compared structurally (a
special case of `fgEquiv` adequate when layer maps agree as lists). -/
def fgMapEq (a b : Fontgarden) : Prop :=
  ∀ k, lookupAL a.glyphs k = lookupAL b.glyphs k

/-! ## Codepoint cell codec, `codepoints_serde` in src/structs.rs

The CSV cell for the `codepoints` column is produced by
`format!("{:04X}", c)` joined with spaces, and parsed by
`str::split_whitespace` + `u32::from_str_radix(_, 16)` + `char::try_from`.
The standard-library pieces are modelled concretely below. -/

/-- Uppercase hexadecimal digit for a value below 16 (as `{:X}` prints). -/
def hexDigitChar (n : Nat) : Char :=
  if n < 10 then Char.ofNat (48 + n) else Char.ofNat (55 + n)

/-- Model of `format!("{:04X}", n)`: big-endian uppercase hex digits,
zero-padded on the left to at least four characters. -/
def formatHex04 (n : Nat) : Str :=
  let ds := ((Nat.digits 16 n).map hexDigitChar).reverse
  List.replicate (4 - ds.length) '0' ++ ds

/-- Value of one hexadecimal digit character, per `char::to_digit(16)`. -/
def hexVal (c : Char) : Option Nat :=
  if '0' ≤ c ∧ c ≤ '9' then some (c.toNat - 48)
  else if 'A' ≤ c ∧ c ≤ 'F' then some (c.toNat - 55)
  else if 'a' ≤ c ∧ c ≤ 'f' then some (c.toNat - 87)
  else none

/-- Accumulating loop of `u32::from_str_radix(_, 16)`; fails on a non-digit
or on overflow past `u32::MAX`. -/
def parseHexGo : Nat → Str → Option Nat
  | acc, [] => some acc
  | acc, c :: rest =>
    match hexVal c with
    | none => none
    | some d => if acc * 16 + d < 4294967296 then parseHexGo (acc * 16 + d) rest else none

/-- Model of `u32::from_str_radix(s, 16)` on sign-free input (the inputs the
program parses never carry a sign). -/
def from_str_radix16 (s : Str) : Option Nat :=
  if s.isEmpty then none else parseHexGo 0 s

/-- Model of `char::try_from(u32)`: succeeds exactly on Unicode scalar
values. -/
def char_try_from (n : Nat) : Option Char :=
  if h : n.isValidChar then some (Char.ofNatAux n h) else none

/-- Model of `norad::Codepoints::insert`: the stored codepoint sequence is
kept duplicate-free, new values are appended. -/
def codepoints_insert (cps : List Char) (c : Char) : List Char :=
  if c ∈ cps then cps else cps ++ [c]

/-- Model of `Vec::join(" ")`: tokens separated by single spaces. -/
def joinSpace : List Str → Str
  | [] => []
  | [t] => t
  | t :: rest => t ++ ' ' :: joinSpace rest

/-- Model of `codepoints_serde::serialize` (structs.rs lines 241–252). -/
def codepoints_serialize (cps : List Char) : Str :=
  joinSpace (cps.map fun c => formatHex04 c.toNat)

/-- Model of `char::is_whitespace` (Lean's `Char.isWhitespace`; the cells the
program splits contain only hex digits and spaces, where the two predicates
agree). -/
def isWsChar (c : Char) : Bool := c.isWhitespace

/-- Recursion worker for `split_ws`; the fuel argument (an upper bound on
the string length) makes the recursion structural, so the function
evaluates by kernel reduction. -/
def split_ws_fuel : Nat → Str → List Str
  | 0, _ => []
  | _ + 1, [] => []
  | fuel + 1, c :: rest =>
    if isWsChar c then split_ws_fuel fuel rest
    else (c :: rest.takeWhile (fun x => !isWsChar x)) ::
      split_ws_fuel fuel (rest.dropWhile (fun x => !isWsChar x))

/-- Model of `str::split_whitespace`: maximal non-whitespace runs. -/
def split_ws (s : Str) : List Str := split_ws_fuel s.length s

/-- Loop of `codepoints_serde::deserialize` (structs.rs lines 254–271). -/
def codepoints_parse_go : List Char → List Str → Option (List Char)
  | acc, [] => some acc
  | acc, t :: ts =>
    match from_str_radix16 t with
    | none => none
    | some n =>
      match char_try_from n with
      | none => none
      | some c => codepoints_parse_go (codepoints_insert acc c) ts

/-- Model of `codepoints_serde::deserialize` (structs.rs lines 254–271);
`none` models the two `InvalidCodepoints` failure paths. -/
def codepoints_deserialize (s : Str) : Option (List Char) :=
  codepoints_parse_go [] (split_ws s)

/-! ## OpenTypeCategory cell codec -/

/-- Serialized form of a category: serde's `rename_all = "lowercase"`
variant name. -/
def category_to_str : OpenTypeCategory → Str
  | .unassigned => str "unassigned"
  | .base => str "base"
  | .ligature => str "ligature"
  | .mark => str "mark"
  | .component => str "component"

/-- Model of `OpenTypeCategory::from_str` (structs.rs lines 418–431); the
static error string is collapsed to `none`. -/
def category_from_str (s : Str) : Option OpenTypeCategory :=
  if s = str "base" then some .base
  else if s = str "component" then some .component
  else if s = str "ligature" then some .ligature
  else if s = str "mark" then some .mark
  else if s = str "unassigned" then some .unassigned
  else none

/-! ## File-name helpers, `std::path` behaviour on plain file names -/

/-- True for every character other than `'.'`. -/
def notDot (c : Char) : Bool := c != '.'

/-- Split a file name at its last dot, if any. -/
def lastDotSplit (s : Str) : Option (Str × Str) :=
  if '.' ∈ s then
    some (((s.reverse.dropWhile notDot).drop 1).reverse, (s.reverse.takeWhile notDot).reverse)
  else none

/-- Model of `Path::extension` for a bare file name. -/
def extOf (s : Str) : Option Str :=
  match lastDotSplit s with
  | none => none
  | some (st, ex) => if st = [] then none else some ex

/-- Model of `Path::file_stem` for a bare file name. -/
def stemOf (s : Str) : Str :=
  match lastDotSplit s with
  | none => s
  | some (st, _) => if st = [] then s else st

/-- Model of `str::strip_prefix("set.")`. -/
def stripSetDot : Str → Option Str
  | 's' :: 'e' :: 't' :: '.' :: rest => some rest
  | _ => none

/-! ## Errors, src/errors.rs

Payloads of external error types (`std::io::Error`, `csv::Error`,
`serde_json::Error`, the boxed codepoint parse error) are dropped; the
path/name context the program attaches is kept. -/

/-- Model of `LoadError` (errors.rs lines 13–27). -/
inductive LoadError
  | io (path : Str)
  | notAFontgarden
  | duplicateGlyphs (set : Str) (glyph : Str)
  | invalidCodepoints (s : Str)
  | loadSetData (path : Str)
  | loadLayerJson (path : Str) (glyph : Str)
deriving DecidableEq

/-- Model of `SourceLoadError` (errors.rs lines 5–11); the `PathBuf`
payload of `DuplicateLayerName` is a filesystem detail and is dropped. -/
inductive SourceLoadError
  | ufo (path : Str)
  | duplicateLayerName (name : Str)
deriving DecidableEq

/-- Model of `SourceSaveError` as the call sites in main.rs/ufo.rs use it
(constructors `GlyphNamingError`, `AnchorNamingError`,
`ComponentNamingError`). -/
inductive SourceSaveError
  | glyphNamingError (name : Str)
  | anchorNamingError (name : Str)
  | componentNamingError (name : Str)
deriving DecidableEq

/-! ## Storage engine, `Fontgarden::save` / `Fontgarden::load`
(structs.rs lines 30–215)

The directory tree is modelled by `Disk`: the manifest files at the root
(file name, CSV rows) and the per-glyph payload directories (directory
name, payload files as (file name, deserialized `Layer`)).  CSV rows keep
the `name` and `postscript_name` cells structurally (the `csv` crate is the
external encoder) while the `codepoints` and `opentype_category` cells are
the strings the repository's own cell codecs produce. -/

/-- A CSV manifest row, `SetRecord` (structs.rs lines 220–230). -/
structure SetRecord where
  name : Str
  postscript_name : Option Str
  codepoints : Str
  opentype_category : Str
deriving DecidableEq

/-- On-disk state of a project directory. -/
structure Disk where
  manifests : List (Str × List SetRecord)
  glyph_dirs : List (Str × List (Str × Layer))
deriving DecidableEq

/-- The `COMMON_SET_NAME` constant (structs.rs line 28). -/
def COMMON_SET_NAME : Str := str "Common"

/-- The set a glyph is filed under:
`glyph.set.as_deref().unwrap_or(COMMON_SET_NAME)`. -/
def set_of_glyph (g : Glyph) : Str := g.set.getD COMMON_SET_NAME

/-- The manifest row written for one glyph (structs.rs lines 175–182). -/
def save_record (name : Str) (g : Glyph) : SetRecord :=
  { name := name
    postscript_name := g.postscript_name
    codepoints := codepoints_serialize g.codepoints
    opentype_category := category_to_str g.opentype_category }

/-- Lexicographic (by code point) comparison of names, as Rust's `sort`
on `&str` orders them. -/
def strLeb : Str → Str → Bool
  | [], _ => true
  | _ :: _, [] => false
  | a :: xs, b :: ys => if a = b then strLeb xs ys else decide (a < b)

/-- Insert into a sorted list of names. -/
def insertSorted (x : Str) : List Str → List Str
  | [] => [x]
  | y :: ys => if strLeb x y then x :: y :: ys else y :: insertSorted x ys

/-- Model of `sorted_glyph_names.sort()` (structs.rs lines 156–157). -/
def sortStrs : List Str → List Str
  | [] => []
  | x :: xs => insertSorted x (sortStrs xs)

/-- Model of the `glyphs_by_set` grouping (structs.rs lines 158–165):
bucket the sorted names by their glyph's set, in first-occurrence order. -/
def groupBySet (fg : Fontgarden) (names : List Str) : List (Str × List Str) :=
  names.foldl
    (fun acc n =>
      match lookupAL fg.glyphs n with
      | some g => updateAL (set_of_glyph g) [] (fun v => v ++ [n]) acc
      | none => acc)
    []

/-- The file name of a set manifest:
`name_to_filename(&format!("set.{set_name}.csv"))` (structs.rs line 168). -/
def manifest_file_name (u : Char → Bool) (set_name : Str) : Str :=
  name_to_filename u (str "set." ++ set_name ++ str ".csv")

/-- The manifest-writing half of `save` (structs.rs lines 156–187). -/
def save_metadata (u : Char → Bool) (fg : Fontgarden) : List (Str × List SetRecord) :=
  (groupBySet fg (sortStrs (fg.glyphs.map Prod.fst))).map fun p =>
    (manifest_file_name u p.1,
     p.2.filterMap fun n => (lookupAL fg.glyphs n).map fun g => save_record n g)

/-- The file name of a layer payload:
`format!("{}.json", name_to_filename(layer_name))` (structs.rs line 203). -/
def layer_file_name (u : Char → Bool) (layer_name : Str) : Str :=
  name_to_filename u layer_name ++ str ".json"

/-- The payload-writing half of `save` (structs.rs lines 189–212): one
directory per glyph that is not empty, one file per non-empty layer. -/
def save_payloads (u : Char → Bool) (fg : Fontgarden) : List (Str × List (Str × Layer)) :=
  (fg.glyphs.filter fun p => !p.2.is_empty).map fun p =>
    (name_to_filename u p.1,
     (p.2.layers.filter fun q => !q.2.is_empty).map fun q => (layer_file_name u q.1, q.2))

/-- Model of `Fontgarden::save` (structs.rs lines 150–215); the prior
deletion of the target directory and the I/O failure modes live outside the
`Disk` abstraction. -/
def Fontgarden.save (u : Char → Bool) (fg : Fontgarden) : Disk :=
  ⟨save_metadata u fg, save_payloads u fg⟩

/-- Decoding one manifest row into a glyph (structs.rs lines 115–135);
failures of the two cell codecs surface as the `LoadSetData`-wrapped csv
error of the source. -/
def parse_record (path : Str) (set_name : Str) (r : SetRecord) :
    Except LoadError (Str × Glyph) :=
  match codepoints_deserialize r.codepoints with
  | none => .error (.loadSetData path)
  | some cps =>
    match category_from_str r.opentype_category with
    | none => .error (.loadSetData path)
    | some cat =>
      .ok (r.name,
        { codepoints := cps
          layers := []
          opentype_category := cat
          postscript_name := r.postscript_name
          set := if set_name = COMMON_SET_NAME then none else some set_name })

/-- The row loop of `load_metadata` (structs.rs lines 115–136): parse the
row, fail on a glyph name already present, else insert. -/
def load_manifest_rows (path : Str) (set_name : Str) :
    List (Str × Glyph) → List SetRecord → Except LoadError (List (Str × Glyph))
  | acc, [] => .ok acc
  | acc, r :: rs =>
    match parse_record path set_name r with
    | .error e => .error e
    | .ok entry =>
      if containsKeyAL acc entry.1 then .error (.duplicateGlyphs set_name entry.1)
      else load_manifest_rows path set_name (acc ++ [entry]) rs

/-- Model of `Fontgarden::load_metadata` (structs.rs lines 90–140): skip
files that are not `set.<…>.csv`, decode the set name from the file name,
fold the rows. -/
def load_metadata (u : Char → Bool) :
    List (Str × Glyph) → List (Str × List SetRecord) → Except LoadError (List (Str × Glyph))
  | acc, [] => .ok acc
  | acc, f :: files =>
    if extOf f.1 ≠ some (str "csv") then load_metadata u acc files
    else
      match stripSetDot (stemOf f.1) with
      | none => load_metadata u acc files
      | some set_filename =>
        match load_manifest_rows f.1 (filename_to_name u set_filename) acc f.2 with
        | .error e => .error e
        | .ok acc' => load_metadata u acc' files

/-- The per-glyph payload pass of `load` (structs.rs lines 48–74): insert
one layer per `.json` file, keyed by the decoded file stem. -/
def load_glyph_layers (u : Char → Bool) (files : List (Str × Layer)) (g : Glyph) : Glyph :=
  { g with
    layers := files.foldl
      (fun ls f =>
        if extOf f.1 = some (str "json")
        then insertAL (filename_to_name u (stemOf f.1)) f.2 ls
        else ls)
      g.layers }

/-- Model of `Fontgarden::load` (structs.rs lines 30–77); the
`NotAFontgarden` guard and the raw I/O failures live outside the `Disk`
abstraction.  Glyphs without an existing payload directory keep their empty
layer map. -/
def Fontgarden.load (u : Char → Bool) (d : Disk) : Except LoadError Fontgarden :=
  match load_metadata u [] d.manifests with
  | .error e => .error e
  | .ok m =>
    .ok ⟨m.map fun p =>
      match lookupAL d.glyph_dirs (name_to_filename u p.1) with
      | none => p
      | some files => (p.1, load_glyph_layers u files p.2)⟩

/-! ## External source model (norad)

A loaded UFO source is modelled structurally: a style name, the default
layer, the remaining layers in iteration order (norad's `iter_layers` yields
the default layer first), and the two `lib` dictionaries the program reads.
`std::ptr::eq(source, default_source)` is modelled as equality of the style
names keying the source map — the map's keys are unique, so the two agree.
-/

/-- A norad anchor as the program reads it. -/
structure NAnchor where
  name : Option Str
  x : Rat
  y : Rat
deriving DecidableEq

/-- A norad contour point as the program reads it. -/
structure NContourPoint where
  x : Rat
  y : Rat
  typ : PointType
  smooth : Bool
deriving DecidableEq

/-- A norad contour as the program reads it. -/
structure NContour where
  points : List NContourPoint
deriving DecidableEq

/-- A norad component as the program reads it. -/
structure NComponent where
  base : Str
  transform : AffineTransformation
deriving DecidableEq

/-- A norad glyph as the program reads it; `vertical_origin_lib` is
`glyph.lib.get("public.verticalOrigin").and_then(as_real)`. -/
structure NoradGlyph where
  name : Str
  codepoints : List Char
  width : Rat
  height : Rat
  vertical_origin_lib : Option Rat
  anchors : List NAnchor
  contours : List NContour
  components : List NComponent
deriving DecidableEq

/-- A norad layer as the program reads it. -/
structure NoradLayer where
  name : Str
  glyphs : List NoradGlyph
deriving DecidableEq

/-- A loaded norad font as the program reads it; the `lib` dictionaries map
glyph names to plist values, modelled as `Option Str` (`some` = a string
value, `none` = a non-string value, for which `as_string()` returns None). -/
structure NoradFont where
  style_name : Option Str
  default_layer : NoradLayer
  other_layers : List NoradLayer
  lib_postscript_names : List (Str × Option Str)
  lib_opentype_categories : List (Str × Option Str)
deriving DecidableEq

/-- Model of `From<&norad::Anchor> for Anchor` (structs.rs lines 465–477). -/
def anchor_of_norad (a : NAnchor) : Anchor := ⟨a.name.getD [], a.x, a.y⟩

/-- Model of `From<&norad::ContourPoint> for ContourPoint`
(structs.rs lines 508–517). -/
def contour_point_of_norad (p : NContourPoint) : ContourPoint := ⟨p.x, p.y, p.typ, p.smooth⟩

/-- Model of `From<&norad::Contour> for Contour` (structs.rs lines 494–500). -/
def contour_of_norad (c : NContour) : Contour := ⟨c.points.map contour_point_of_norad⟩

/-- Model of `From<&norad::Component> for Component`
(structs.rs lines 557–564). -/
def component_of_norad (c : NComponent) : Component := ⟨c.base, c.transform⟩

/-- Model of `From<&norad::Glyph> for Layer` (structs.rs lines 444–463):
`y_advance` is taken only when the glyph's lib carries a vertical origin. -/
def layer_of_norad (g : NoradGlyph) : Layer :=
  { anchors := g.anchors.map anchor_of_norad
    components := g.components.map component_of_norad
    contours := g.contours.map contour_of_norad
    vertical_origin := g.vertical_origin_lib
    x_advance := some g.width
    y_advance := g.vertical_origin_lib.map fun _ => g.height }

/-! ## Categorization lookup (glyphsinfo), an external collaborator -/

/-- The part of a glyphsinfo record the program reads. -/
structure GlyphRecord where
  script : Option Str

/-- The external categorization lookup, `glyphsinfo_rs::GlyphData`,
abstracted by its two query functions; `script` values are the strings the
`format!("{s:?}")` rendering produces. -/
structure GlyphData where
  record_for_unicode : Char → Option GlyphRecord
  record_for_name : Str → Option GlyphRecord

/-- Model of `str::split_once(sep)`: split at the first occurrence. -/
def split_once (sep : Char) : Str → Option (Str × Str)
  | [] => none
  | c :: rest =>
    if c = sep then some ([], rest)
    else
      match split_once sep rest with
      | none => none
      | some p => some (c :: p.1, p.2)

/-- Model of `categorize_glyph` (identical in main.rs lines 301–318 and
ufo.rs lines 222–239): look up by first codepoint, else by name, else by
the name's part before the first `.`. -/
def categorize_glyph (info : GlyphData) (glyph : NoradGlyph) : Option Str :=
  match glyph.codepoints.head? with
  | some unicode => (info.record_for_unicode unicode).bind fun r => r.script
  | none =>
    match info.record_for_name glyph.name with
    | some record => record.script
    | none =>
      match split_once '.' glyph.name with
      | some p => (info.record_for_name p.1).bind fun r => r.script
      | none => none

/-! ## Source loading and the merge engines
(main.rs lines 210–299, ufo.rs lines 15–90) -/

/-- The style name a source resolves to:
`font_info.style_name … unwrap_or("Regular")`. -/
def resolved_style_name (f : NoradFont) : Str := f.style_name.getD (str "Regular")

/-- Model of `load_sources` (identical in main.rs lines 279–299 and ufo.rs
lines 200–220): map sources by resolved style name, failing on a duplicate
name.  Iteration order of the resulting `HashMap` is modelled as insertion
order. -/
def load_sources :
    List (Str × NoradFont) → List NoradFont → Except SourceLoadError (List (Str × NoradFont))
  | acc, [] => .ok acc
  | acc, f :: fs =>
    if containsKeyAL acc (resolved_style_name f) then
      .error (.duplicateLayerName (resolved_style_name f))
    else load_sources (acc ++ [(resolved_style_name f, f)]) fs

/-- The name of the default source: `"Regular"` when present, else the
first source in iteration order (`sources.values().next()`). -/
def default_source_name (srcs : List (Str × NoradFont)) : Str :=
  if containsKeyAL srcs (str "Regular") then str "Regular"
  else (srcs.head?.map Prod.fst).getD (str "Regular")

/-- The computed compound layer name (main.rs lines 222–228, ufo.rs lines
31–37): the style name for a source's default layer,
`"<style>.background"` for `public.background`, `"<style>.<name>"`
otherwise. -/
def computed_layer_name (source_name : Str) (layer : NoradLayer) (is_default : Bool) : Str :=
  if is_default then source_name
  else if layer.name = str "public.background" then source_name ++ '.' :: str "background"
  else source_name ++ '.' :: layer.name

/-- The per-glyph body of the main.rs merge loop (main.rs lines 230–244):
when the source is the default source — on every one of its layers — the
codepoints are overwritten and the set classification reassigned; then the
converted layer is stored. -/
def import_glyph_step_main (info : GlyphData) (is_default_source : Bool) (layer_name : Str)
    (glyphs : List (Str × Glyph)) (ng : NoradGlyph) : List (Str × Glyph) :=
  updateAL ng.name defaultGlyph
    (fun g0 =>
      let g := if is_default_source
        then { g0 with codepoints := ng.codepoints, set := categorize_glyph info ng }
        else g0
      { g with layers := insertAL layer_name (layer_of_norad ng) g.layers })
    glyphs

/-- The per-glyph body of the ufo.rs merge loop (ufo.rs lines 39–58): only
when the source is the default source and the layer is its default layer
are the codepoints overwritten, and the set classification assigned only
when the glyph has none yet; then the converted layer is stored. -/
def import_glyph_step_ufo (info : GlyphData) (is_default_primary : Bool) (layer_name : Str)
    (glyphs : List (Str × Glyph)) (ng : NoradGlyph) : List (Str × Glyph) :=
  updateAL ng.name defaultGlyph
    (fun g0 =>
      let g := if is_default_primary
        then { g0 with codepoints := ng.codepoints,
                       set := if g0.set = none then categorize_glyph info ng else g0.set }
        else g0
      { g with layers := insertAL layer_name (layer_of_norad ng) g.layers })
    glyphs

/-- One source's layers folded through the main.rs merge loop (the default
layer first, as `iter_layers` yields it). -/
def import_source_main (info : GlyphData) (default_name : Str)
    (glyphs : List (Str × Glyph)) (src : Str × NoradFont) : List (Str × Glyph) :=
  src.2.other_layers.foldl
    (fun gs layer =>
      layer.glyphs.foldl
        (import_glyph_step_main info (decide (src.1 = default_name))
          (computed_layer_name src.1 layer false)) gs)
    (src.2.default_layer.glyphs.foldl
      (import_glyph_step_main info (decide (src.1 = default_name))
        (computed_layer_name src.1 src.2.default_layer true))
      glyphs)

/-- One source's layers folded through the ufo.rs merge loop;
`ptr::eq(layer, default_source.layers.default_layer())` holds exactly for
the default source's own default layer, so the guard is off on every
non-default layer. -/
def import_source_ufo (info : GlyphData) (default_name : Str)
    (glyphs : List (Str × Glyph)) (src : Str × NoradFont) : List (Str × Glyph) :=
  src.2.other_layers.foldl
    (fun gs layer =>
      layer.glyphs.foldl
        (import_glyph_step_ufo info false (computed_layer_name src.1 layer false)) gs)
    (src.2.default_layer.glyphs.foldl
      (import_glyph_step_ufo info (decide (src.1 = default_name))
        (computed_layer_name src.1 src.2.default_layer true))
      glyphs)

/-- The `public.postscriptNames` override pass (main.rs lines 248–259,
ufo.rs lines 62–72). -/
def apply_postscript_names (entries : List (Str × Option Str))
    (glyphs : List (Str × Glyph)) : List (Str × Glyph) :=
  entries.foldl
    (fun gs e => modifyAL e.1 (fun g => { g with postscript_name := e.2 }) gs) glyphs

/-- The `public.openTypeCategories` override pass (main.rs lines 261–274,
ufo.rs lines 74–87). -/
def apply_opentype_categories (entries : List (Str × Option Str))
    (glyphs : List (Str × Glyph)) : List (Str × Glyph) :=
  entries.foldl
    (fun gs e =>
      modifyAL e.1
        (fun g =>
          { g with
            opentype_category :=
              match e.2 with
              | some s => (category_from_str s).getD .unassigned
              | none => .unassigned })
        gs)
    glyphs

/-- The shared tail of both merge engines: apply the default source's two
lib dictionaries. -/
def finish_import (default_source : NoradFont) (glyphs : List (Str × Glyph)) : Fontgarden :=
  ⟨apply_opentype_categories default_source.lib_opentype_categories
    (apply_postscript_names default_source.lib_postscript_names glyphs)⟩

/-- Model of `import_ufos_into_fontgarden` (main.rs lines 210–277); input
paths are abstracted to the fonts the external reader would return.
`.ok none` models the `unwrap` panic on an empty source list. -/
def import_ufos_into_fontgarden (info : GlyphData) (fonts : List NoradFont) :
    Except SourceLoadError (Option Fontgarden) :=
  match load_sources [] fonts with
  | .error e => .error e
  | .ok srcs =>
    match lookupAL srcs (default_source_name srcs) with
    | none => .ok none
    | some default_source =>
      .ok (some (finish_import default_source
        (srcs.foldl (import_source_main info (default_source_name srcs)) [])))

/-- Model of `Fontgarden::import_ufo_sources` (ufo.rs lines 15–90), the
method variant of the merge; it extends `self` instead of a fresh project.
`.ok none` models the `unwrap` panic on an empty source list. -/
def Fontgarden.import_ufo_sources (self : Fontgarden) (info : GlyphData)
    (fonts : List NoradFont) : Except SourceLoadError (Option Fontgarden) :=
  match load_sources [] fonts with
  | .error e => .error e
  | .ok srcs =>
    match lookupAL srcs (default_source_name srcs) with
    | none => .ok none
    | some default_source =>
      .ok (some (finish_import default_source
        (srcs.foldl (import_source_ufo info (default_source_name srcs)) self.glyphs)))

/-! ## Export engine, `Fontgarden::export_ufo_sources`
(ufo.rs lines 92–198)

Output UFO objects are modelled structurally.  The norad name validator
(`norad::Name::new`) is external; the engine is parameterized by a validity
predicate `valid`, and every theorem quantifies over it. -/

/-- An output UFO glyph as the program builds it. -/
structure UfoGlyph where
  name : Str
  codepoints : List Char
  width : Rat
  height : Rat
  lib_vertical_origin : Option Rat
  anchors : List NAnchor
  contours : List NContour
  components : List NComponent
deriving DecidableEq

/-- Model of `norad::Glyph::new(name)`: all fields at their defaults. -/
def norad_glyph_new (name : Str) : UfoGlyph := ⟨name, [], 0, 0, none, [], [], []⟩

/-- An output UFO layer: glyphs keyed by name (`insert_glyph` replaces). -/
structure UfoLayer where
  glyphs : List (Str × UfoGlyph)
deriving DecidableEq

/-- An output UFO font as the program builds it. -/
structure UfoFont where
  style_name : Option Str
  default_layer : UfoLayer
  named_layers : List (Str × UfoLayer)
  lib_postscript_names : List (Str × Str)
  lib_opentype_categories : List (Str × Str)
deriving DecidableEq

/-- Model of `norad::Font::default()`. -/
def ufoFontDefault : UfoFont := ⟨none, ⟨[]⟩, [], [], []⟩

/-- Model of `norad::Layer::insert_glyph`. -/
def UfoLayer.insert_glyph (l : UfoLayer) (g : UfoGlyph) : UfoLayer :=
  ⟨insertAL g.name g l.glyphs⟩

/-- Model of `TryFrom<&Anchor> for norad::Anchor` (structs.rs lines
479–492): fails when the anchor name is rejected by the validator. -/
def anchor_to_norad (valid : Str → Bool) (a : Anchor) : Option NAnchor :=
  if valid a.name then some ⟨some a.name, a.x, a.y⟩ else none

/-- Model of `From<&ContourPoint> for norad::ContourPoint`
(structs.rs lines 519–531). -/
def contour_point_to_norad (p : ContourPoint) : NContourPoint := ⟨p.x, p.y, p.typ, p.smooth⟩

/-- Model of `From<&Contour> for norad::Contour` (structs.rs lines 502–506). -/
def contour_to_norad (c : Contour) : NContour := ⟨c.points.map contour_point_to_norad⟩

/-- Model of `TryFrom<&Component> for norad::Component`
(structs.rs lines 566–577). -/
def component_to_norad (valid : Str → Bool) (c : Component) : Option NComponent :=
  if valid c.name then some ⟨c.name, c.transformation⟩ else none

/-- Model of `Layer::export_to_ufo_glyph` (ufo.rs lines 162–198): build a
fresh UFO glyph, optionally give it codepoints, copy the metrics (height
and vertical origin only when both are present), then the anchors, contours
and components, failing on a rejected anchor or component name. -/
def Layer.export_to_ufo_glyph (valid : Str → Bool) (l : Layer) (name : Str)
    (codepoints : Option (List Char)) : Except SourceSaveError UfoGlyph :=
  let g0 := norad_glyph_new name
  let g1 := match codepoints with
    | some cps => { g0 with codepoints := cps }
    | none => g0
  let g2 := { g1 with width := l.x_advance.getD 0 }
  let g3 := match l.y_advance, l.vertical_origin with
    | some ya, some vo => { g2 with height := ya, lib_vertical_origin := some vo }
    | _, _ => g2
  match l.anchors.mapM (anchor_to_norad valid) with
  | none => .error (.anchorNamingError name)
  | some ufo_anchors =>
    let g4 := { g3 with anchors := ufo_anchors, contours := l.contours.map contour_to_norad }
    match l.components.mapM (component_to_norad valid) with
    | none => .error (.componentNamingError name)
    | some comps => .ok { g4 with components := comps }

/-- Accumulator of the export loop: the fonts built so far and the two
font-wide dictionaries. -/
structure ExportAcc where
  ufos : List (Str × UfoFont)
  postscript_names : List (Str × Str)
  opentype_categories : List (Str × Str)
deriving DecidableEq

/-- JSON rendering of a string, as `serde_json::to_string` of the category
enum produces it (the quotes are part of the stored value). -/
def json_string (s : Str) : Str := '"' :: s ++ ['"']

/-- The per-layer body of the export loop (ufo.rs lines 104–133).  A layer
name with a `.` targets the named sublayer of the base style's font and the
glyph object is built without codepoints; a plain layer name targets the
style's default layer, the glyph object carries the stored codepoints, and
the glyph's alias/category are registered. -/
def export_layer_step (valid : Str → Bool) (glyph_name : Str) (glyph : Glyph)
    (acc : ExportAcc) (entry : Str × Layer) : Except SourceSaveError ExportAcc :=
  match split_once '.' entry.1 with
  | some p =>
    let ufo := (lookupAL acc.ufos p.1).getD ufoFontDefault
    match entry.2.export_to_ufo_glyph valid glyph_name none with
    | .error e => .error e
    | .ok ufo_glyph =>
      if valid p.2 then
        let target := (lookupAL ufo.named_layers p.2).getD ⟨[]⟩
        let ufo' := { ufo with
          named_layers := insertAL p.2 (target.insert_glyph ufo_glyph) ufo.named_layers }
        .ok { acc with ufos := insertAL p.1 ufo' acc.ufos }
      else .error (.glyphNamingError p.2)
  | none =>
    let ufo := (lookupAL acc.ufos entry.1).getD ufoFontDefault
    match entry.2.export_to_ufo_glyph valid glyph_name (some glyph.codepoints) with
    | .error e => .error e
    | .ok ufo_glyph =>
      let ufo' := { ufo with default_layer := ufo.default_layer.insert_glyph ufo_glyph }
      let acc1 := { acc with ufos := insertAL entry.1 ufo' acc.ufos }
      let acc2 := match glyph.postscript_name with
        | some ps => { acc1 with postscript_names := insertAL glyph_name ps acc1.postscript_names }
        | none => acc1
      if glyph.opentype_category ≠ .unassigned then
        .ok { acc2 with
          opentype_categories := insertAL glyph_name
            (json_string (category_to_str glyph.opentype_category)) acc2.opentype_categories }
      else .ok acc2

/-- One glyph's filtered layers folded through `export_layer_step`. -/
def export_layers (valid : Str → Bool) (glyph_name : Str) (glyph : Glyph) :
    ExportAcc → List (Str × Layer) → Except SourceSaveError ExportAcc
  | acc, [] => .ok acc
  | acc, e :: es =>
    match export_layer_step valid glyph_name glyph acc e with
    | .error err => .error err
    | .ok acc' => export_layers valid glyph_name glyph acc' es

/-- The glyph loop of the export engine (ufo.rs lines 101–134): validate
the glyph name, then process the layers passing the source-name filter
(`source_names.is_empty() || source_names.contains(layer_name)`). -/
def export_glyphs (valid : Str → Bool) (source_names : List Str) :
    ExportAcc → List (Str × Glyph) → Except SourceSaveError ExportAcc
  | acc, [] => .ok acc
  | acc, p :: ps =>
    if valid p.1 then
      match export_layers valid p.1 p.2 acc
          (p.2.layers.filter fun q =>
            decide (source_names = []) || decide (q.1 ∈ source_names)) with
      | .error e => .error e
      | .ok acc' => export_glyphs valid source_names acc' ps
    else .error (.glyphNamingError p.1)

/-- The style-name stamping pass (ufo.rs lines 136–138). -/
def stamp_style_names (ufos : List (Str × UfoFont)) : List (Str × UfoFont) :=
  ufos.map fun p => (p.1, { p.2 with style_name := some p.1 })

/-- The lib-dictionary attachment passes (ufo.rs lines 140–156). -/
def attach_lib_dicts (ps cats : List (Str × Str))
    (ufos : List (Str × UfoFont)) : List (Str × UfoFont) :=
  let ufos1 := if ps ≠ [] then ufos.map (fun p => (p.1, { p.2 with lib_postscript_names := ps }))
    else ufos
  if cats ≠ [] then ufos1.map (fun p => (p.1, { p.2 with lib_opentype_categories := cats }))
  else ufos1

/-- Model of `Fontgarden::export_ufo_sources` (ufo.rs lines 92–159). -/
def Fontgarden.export_ufo_sources (valid : Str → Bool) (fg : Fontgarden)
    (source_names : List Str) : Except SourceSaveError (List (Str × UfoFont)) :=
  match export_glyphs valid source_names ⟨[], [], []⟩ fg.glyphs with
  | .error e => .error e
  | .ok acc =>
    .ok (attach_lib_dicts acc.postscript_names acc.opentype_categories
      (stamp_style_names acc.ufos))

/-- Specification predicate for the export engine: every glyph object in a
named (secondary) layer of the font carries no codepoints, and every glyph
object in the default layer carries the codepoints of a stored glyph of the
same name. -/
def fontCodepointsOK (stored : List (Str × Glyph)) (f : UfoFont) : Prop :=
  (∀ q ∈ f.named_layers, ∀ r ∈ q.2.glyphs, r.2.codepoints = []) ∧
  (∀ r ∈ f.default_layer.glyphs,
    ∃ s ∈ stored, r.2.name = s.1 ∧ r.2.codepoints = s.2.codepoints)

/-! ## Selective import reference set

`Fontgarden::load_glyphs_selectively_and_follow` (structs.rs lines 142–148)
has a `todo!()` body: the algorithm is absent from the sources, so the
reference-set computation is modelled from the specification's words. -/

/-- The classification used by the diff: the glyph's set, or "Common" when
unclassified. -/
def glyph_set_or_common (g : Glyph) : Str := g.set.getD COMMON_SET_NAME

/-- Modelled from the spec: glyph `a` references glyph `b` as a component
base when some stored layer of `a` contains a component naming `b`. -/
def references_component (fg : Fontgarden) (a b : Str) : Prop :=
  ∃ g, lookupAL fg.glyphs a = some g ∧
    ∃ le ∈ g.layers, ∃ comp ∈ le.2.components, comp.name = b

/-- Modelled from the spec (§4.4, non-empty `target_sets` case): the
membership predicate of `reference_set` — the currently-stored glyphs whose
classification (or "Common" if unclassified) is in `target_sets`, closed
transitively over component references into stored glyphs
(`load_glyphs_selectively_and_follow` is `todo!()` in the source). -/
inductive InReferenceSet (fg : Fontgarden) (target_sets : List Str) : Str → Prop
  | base : ∀ name g, lookupAL fg.glyphs name = some g →
      glyph_set_or_common g ∈ target_sets → InReferenceSet fg target_sets name
  | follow : ∀ a b gb, InReferenceSet fg target_sets a →
      references_component fg a b → lookupAL fg.glyphs b = some gb →
      InReferenceSet fg target_sets b

/-! ## Concrete fixtures used by witnesses and counterexamples -/

/-- A categorization lookup with an empty data table. -/
def emptyGlyphData : GlyphData := ⟨fun _ => none, fun _ => none⟩

/-- An empty layer value. -/
def emptyLayer : Layer := ⟨[], [], [], none, none, none⟩

/-- A non-empty layer value (it has an x-advance). -/
def advLayer : Layer := ⟨[], [], [], none, some 1, none⟩

/-- A fixture project: glyph "a" has one empty and one non-empty layer,
glyph "b" has a single empty layer. -/
def w5fg : Fontgarden :=
  ⟨[(str "a", ⟨[], [(str "Regular", advLayer), (str "Regular.background", emptyLayer)],
      .unassigned, none, none⟩),
    (str "b", ⟨[], [(str "Bold", emptyLayer)], .unassigned, none, none⟩)]⟩

/-- A norad glyph named "A" with codepoint U+0061 and no outline data. -/
def ngA : NoradGlyph := ⟨str "A", ['a'], 0, 0, none, [], [], []⟩

/-- The same glyph as seen in a background layer: no codepoints. -/
def ngA0 : NoradGlyph := ⟨str "A", [], 0, 0, none, [], [], []⟩

/-- A source whose default layer defines "A" with a codepoint and whose
background layer also contains "A", without codepoints. -/
def cxFont : NoradFont :=
  ⟨some (str "Regular"), ⟨str "foreground", [ngA]⟩,
   [⟨str "public.background", [ngA0]⟩], [], []⟩

/-- A layer whose only content is one component referencing glyph "B". -/
def w8compLayer : Layer := ⟨[], [⟨str "B", .identity⟩], [], none, none, none⟩

/-- A fixture project for the reference-set closure: "A" (set "S")
references "B" (unclassified, hence "Common"). -/
def w8gA : Glyph := ⟨[], [(str "Regular", w8compLayer)], .unassigned, none, some (str "S")⟩

/-- The referenced glyph "B" of the closure fixture. -/
def w8gB : Glyph := ⟨[], [], .unassigned, none, none⟩

/-- The closure fixture project. -/
def w8fg : Fontgarden := ⟨[(str "A", w8gA), (str "B", w8gB)]⟩

/-- A single-layer "Regular" source defining only glyph "A". -/
def w10font : NoradFont := ⟨some (str "Regular"), ⟨str "foreground", [ngA]⟩, [], [], []⟩

/-- A single-layer "Bold" source defining only glyph "A" (no codepoints). -/
def w9bold : NoradFont := ⟨some (str "Bold"), ⟨str "foreground", [ngA0]⟩, [], [], []⟩

/-- A fixture project for the export witness: one glyph with a primary
("Regular") and a secondary ("Bold.background") layer. -/
def w7fg : Fontgarden :=
  ⟨[(str "a",
    ⟨['a'], [(str "Regular", advLayer), (str "Bold.background", advLayer)],
     .unassigned, none, none⟩)]⟩

/-- The fonts exported from `w7fg` (the export succeeds; the error branch
is never taken). -/
def w7out : List (Str × UfoFont) :=
  match Fontgarden.export_ufo_sources (fun _ => true) w7fg [] with
  | .ok u => u
  | .error _ => []

/-- A metadata-only fixture project mirroring the repository's
`roundtrip_no_layers` test: glyph "a" with a codepoint and postscript name,
glyph "b" categorized `base` in set "Test". -/
def w4fg : Fontgarden :=
  ⟨[(str "a", ⟨['a'], [], .unassigned, some (str "a"), none⟩),
    (str "b", ⟨[], [], .base, none, some (str "Test")⟩)]⟩

/-- A manifest row named "x" used by the duplicate-glyph scenario. -/
def w6row : SetRecord := ⟨str "x", none, str "0061", str "unassigned"⟩

end FG

namespace FG

/-! # Theorems -/

/-! ## Filename codec -/

theorem filename_to_name_go_encode (u : Char → Bool) (n : Str) :
    filename_to_name_go u false false (name_to_filename u n) = n := by
  induction n with
  | nil => rfl
  | cons c rest ih =>
    cases hu : u c with
    | true => simp [name_to_filename, hu, filename_to_name_go, ih]
    | false =>
      by_cases hc : c = '_'
      · subst hc
        simp [name_to_filename, hu, filename_to_name_go, ih]
      · have hc' : (c == '_') = false := by simp [hc]
        simp [name_to_filename, hu, hc, hc', filename_to_name_go, ih]

theorem filename_roundtrip_aux (u : Char → Bool) (n : Str) :
    filename_to_name u (name_to_filename u n) = n :=
  filename_to_name_go_encode u n

theorem name_to_filename_append (u : Char → Bool) (a b : Str) :
    name_to_filename u (a ++ b) = name_to_filename u a ++ name_to_filename u b := by
  induction a with
  | nil => rfl
  | cons c rest ih => simp [name_to_filename, ih]

theorem name_to_filename_inj (u : Char → Bool) {a b : Str}
    (h : name_to_filename u a = name_to_filename u b) : a = b := by
  have h2 : filename_to_name_go u false false (name_to_filename u a) =
      filename_to_name_go u false false (name_to_filename u b) := by rw [h]
  rwa [filename_to_name_go_encode, filename_to_name_go_encode] at h2

/-- C2: for every Unicode name (in particular every valid name free of
filesystem-reserved characters), decoding the encoded filename returns the
original name — `filename_to_name (name_to_filename n) = n`.  Proved for
every uppercase predicate `u`, hence for the Unicode table Rust's
`char::is_uppercase` uses. -/
theorem C2_filename_roundtrip (u : Char → Bool) (n : Str) :
    filename_to_name u (name_to_filename u n) = n :=
  filename_to_name_go_encode u n

/-- C3: two names that differ only in letter case yet are distinct encode
to distinct filenames, so their encodings cannot collide. -/
theorem C3_case_distinct_encodings (u : Char → Bool) (lo hi : Str)
    (_hcase : lo.map Char.toLower = hi.map Char.toLower) (hne : lo ≠ hi) :
    name_to_filename u lo ≠ name_to_filename u hi :=
  fun h => hne (name_to_filename_inj u h)

/-- Witness for C3 at lo = "a", hi = "A" under the ASCII uppercase table. -/
theorem C3_case_distinct_encodings_witness :
    ((str "a").map Char.toLower = (str "A").map Char.toLower ∧ str "a" ≠ str "A") ∧
      name_to_filename Char.isUpper (str "a") ≠ name_to_filename Char.isUpper (str "A") :=
  ⟨⟨by decide, by decide⟩,
   C3_case_distinct_encodings Char.isUpper (str "a") (str "A") (by decide) (by decide)⟩

/-! ## Association-list lemmas -/

theorem lookupAL_insert_self {α : Type} (l : List (Str × α)) (k : Str) (v : α) :
    lookupAL (insertAL k v l) k = some v := by
  induction l with
  | nil => simp [insertAL, lookupAL]
  | cons p rest ih =>
    obtain ⟨k', v'⟩ := p
    by_cases h : k' = k
    · simp [insertAL, h, lookupAL]
    · simp [insertAL, h, lookupAL, ih]

theorem lookupAL_insert_ne {α : Type} (l : List (Str × α)) (k k' : Str) (v : α)
    (h : k ≠ k') : lookupAL (insertAL k v l) k' = lookupAL l k' := by
  induction l with
  | nil => simp [insertAL, lookupAL, h]
  | cons p rest ih =>
    obtain ⟨k0, v0⟩ := p
    by_cases h0 : k0 = k
    · subst h0; simp [insertAL, lookupAL, h, ih]
    · simp [insertAL, h0, lookupAL, ih]

theorem lookupAL_update_self {α : Type} (l : List (Str × α)) (k : Str) (d : α) (f : α → α) :
    lookupAL (updateAL k d f l) k = some (f ((lookupAL l k).getD d)) := by
  induction l with
  | nil => simp [updateAL, lookupAL]
  | cons p rest ih =>
    obtain ⟨k0, v0⟩ := p
    by_cases h0 : k0 = k
    · simp [updateAL, h0, lookupAL]
    · simp [updateAL, h0, lookupAL, ih]

theorem lookupAL_update_ne {α : Type} (l : List (Str × α)) (k k' : Str) (d : α) (f : α → α)
    (h : k ≠ k') : lookupAL (updateAL k d f l) k' = lookupAL l k' := by
  induction l with
  | nil => simp [updateAL, lookupAL, h]
  | cons p rest ih =>
    obtain ⟨k0, v0⟩ := p
    by_cases h0 : k0 = k
    · subst h0; simp [updateAL, lookupAL, h, ih]
    · simp [updateAL, h0, lookupAL, ih]

theorem lookupAL_modify_self {α : Type} (l : List (Str × α)) (k : Str) (f : α → α) :
    lookupAL (modifyAL k f l) k = (lookupAL l k).map f := by
  induction l with
  | nil => simp [modifyAL, lookupAL]
  | cons p rest ih =>
    obtain ⟨k0, v0⟩ := p
    by_cases h0 : k0 = k
    · simp [modifyAL, h0, lookupAL]
    · simp [modifyAL, h0, lookupAL, ih]

theorem lookupAL_modify_ne {α : Type} (l : List (Str × α)) (k k' : Str) (f : α → α)
    (h : k ≠ k') : lookupAL (modifyAL k f l) k' = lookupAL l k' := by
  induction l with
  | nil => simp [modifyAL, lookupAL]
  | cons p rest ih =>
    obtain ⟨k0, v0⟩ := p
    by_cases h0 : k0 = k
    · subst h0; simp [modifyAL, lookupAL, h, ih]
    · simp [modifyAL, h0, lookupAL, ih]

theorem nodup_keys_eq {α : Type} {l : List (Str × α)} (h : (l.map Prod.fst).Nodup)
    {p q : Str × α} (hp : p ∈ l) (hq : q ∈ l) (hk : p.1 = q.1) : p = q := by
  induction l with
  | nil => cases hp
  | cons x rest ih =>
    simp only [List.map_cons, List.nodup_cons] at h
    rcases List.mem_cons.mp hp with hpx | hpr
    · rcases List.mem_cons.mp hq with hqx | hqr
      · rw [hpx, hqx]
      · exfalso
        apply h.1
        rw [← hpx, hk]
        exact List.mem_map.mpr ⟨q, hqr, rfl⟩
    · rcases List.mem_cons.mp hq with hqx | hqr
      · exfalso
        apply h.1
        rw [← hqx, ← hk]
        exact List.mem_map.mpr ⟨p, hpr, rfl⟩
      · exact ih h.2 hpr hqr

theorem exists_false_of_all_eq_false {α : Type} {p : α → Bool} {l : List α}
    (h : l.all p = false) : ∃ x ∈ l, p x = false := by
  induction l with
  | nil => cases h
  | cons a t ih =>
    rw [List.all_cons] at h
    cases hpa : p a with
    | false => exact ⟨a, List.mem_cons_self a t, hpa⟩
    | true =>
      rw [hpa, Bool.true_and] at h
      rcases ih h with ⟨x, hx, hpx⟩
      exact ⟨x, List.mem_cons_of_mem a hx, hpx⟩

/-! ## C5: payload writing discipline of `save` -/

/-- C5: `save` writes a payload file only for non-empty layers; a glyph
directory appears only for a glyph with at least one non-empty layer; and a
glyph all of whose layers are empty leaves no trace under `glyphs/`. -/
theorem C5_save_payload_discipline (u : Char → Bool) (fg : Fontgarden)
    (hnd : (fg.glyphs.map Prod.fst).Nodup) :
    (∀ d fs, (d, fs) ∈ save_payloads u fg →
      (∀ f l, (f, l) ∈ fs → l.is_empty = false) ∧
      ∃ p ∈ fg.glyphs, d = name_to_filename u p.1 ∧
        ∃ q ∈ p.2.layers, q.2.is_empty = false) ∧
    (∀ p ∈ fg.glyphs, p.2.is_empty = true →
      name_to_filename u p.1 ∉ (save_payloads u fg).map Prod.fst) := by
  constructor
  · intro d fs hmem
    rcases List.mem_map.mp hmem with ⟨p, hpf, heq⟩
    have hpfilter := List.mem_filter.mp hpf
    have hd : d = name_to_filename u p.1 := by
      have := congrArg Prod.fst heq
      simpa using this.symm
    have hfs : fs = (p.2.layers.filter fun q => !q.2.is_empty).map
        fun q => (layer_file_name u q.1, q.2) := by
      have := congrArg Prod.snd heq
      simpa using this.symm
    constructor
    · intro f l hfl
      rw [hfs] at hfl
      rcases List.mem_map.mp hfl with ⟨q, hqf, hqeq⟩
      have hq := List.mem_filter.mp hqf
      have : l = q.2 := by
        have := congrArg Prod.snd hqeq
        simpa using this.symm
      rw [this]
      simpa using hq.2
    · refine ⟨p, hpfilter.1, hd, ?_⟩
      have hne : p.2.is_empty = false := by simpa using hpfilter.2
      unfold Glyph.is_empty at hne
      rcases exists_false_of_all_eq_false hne with ⟨q, hqmem, hqfalse⟩
      exact ⟨q, hqmem, hqfalse⟩
  · intro p hp hempty hmem
    rcases List.mem_map.mp hmem with ⟨pair, hpairmem, hfst⟩
    rcases List.mem_map.mp hpairmem with ⟨p', hp'f, heq⟩
    have hp'filter := List.mem_filter.mp hp'f
    have : name_to_filename u p'.1 = name_to_filename u p.1 := by
      have := congrArg Prod.fst heq
      simp at this
      rw [← hfst, ← this]
    have hkeys : p'.1 = p.1 := name_to_filename_inj u this
    have hpp : p' = p := nodup_keys_eq hnd hp'filter.1 hp hkeys
    have : p.2.is_empty = false := by
      have h2 := hp'filter.2
      rw [hpp] at h2
      simpa using h2
    rw [hempty] at this
    cases this

/-- Witness for C5 at a concrete project with one half-empty glyph and one
fully empty glyph. -/
theorem C5_save_payload_discipline_witness :
    ((w5fg.glyphs.map Prod.fst).Nodup) ∧
    ((∀ d fs, (d, fs) ∈ save_payloads Char.isUpper w5fg →
      (∀ f l, (f, l) ∈ fs → l.is_empty = false) ∧
      ∃ p ∈ w5fg.glyphs, d = name_to_filename Char.isUpper p.1 ∧
        ∃ q ∈ p.2.layers, q.2.is_empty = false) ∧
    (∀ p ∈ w5fg.glyphs, p.2.is_empty = true →
      name_to_filename Char.isUpper p.1 ∉ (save_payloads Char.isUpper w5fg).map Prod.fst)) :=
  ⟨by decide, C5_save_payload_discipline Char.isUpper w5fg (by decide)⟩

/-! ## C1: which layer's processing may touch codepoints and set -/

/-- Counterexample for C1: in `import_ufos_into_fontgarden` (main.rs), the
codepoint overwrite is keyed on the default *source* only, so processing
the default source's background (non-primary) layer also overwrites the
codepoints: after importing a "Regular" source whose primary layer gives
"A" codepoint U+0061 and whose background layer lists "A" without
codepoints, the stored codepoints are those of the background glyph. -/
theorem C1_counterexample :
    (import_ufos_into_fontgarden emptyGlyphData [cxFont]).map
        (fun o => o.map fun fg => (lookupAL fg.glyphs (str "A")).map Glyph.codepoints) =
      .ok (some (some ([] : List Char))) ∧ ([] : List Char) ≠ ['a'] :=
  ⟨rfl, by decide⟩

/-- C1 amended: the claimed discipline holds for the per-glyph step of
`Fontgarden::import_ufo_sources` (ufo.rs), whose guard is "default source
and its primary layer": with the guard off the step preserves every stored
glyph's codepoints and set; with the guard on it overwrites the codepoints
and assigns the set only when none is present.  The main.rs variant obeys
the discipline only for non-default sources (its guard ignores the layer);
its guarded step is the subject of the counterexample. -/
theorem C1_amended_step_discipline (info : GlyphData) (flag : Bool) (layer_name : Str)
    (glyphs : List (Str × Glyph)) (ng : NoradGlyph) (name : Str) (g : Glyph)
    (hg : lookupAL glyphs name = some g) (hcase : flag = false ∨ name ≠ ng.name) :
    (∃ g', lookupAL (import_glyph_step_ufo info flag layer_name glyphs ng) name = some g' ∧
      g'.codepoints = g.codepoints ∧ g'.set = g.set) ∧
    (∃ g', lookupAL (import_glyph_step_ufo info true layer_name glyphs ng) ng.name = some g' ∧
      g'.codepoints = ng.codepoints ∧
      g'.set = if ((lookupAL glyphs ng.name).getD defaultGlyph).set = none
        then categorize_glyph info ng
        else ((lookupAL glyphs ng.name).getD defaultGlyph).set) ∧
    (∃ g', lookupAL (import_glyph_step_main info false layer_name glyphs ng) name = some g' ∧
      g'.codepoints = g.codepoints ∧ g'.set = g.set) := by
  refine ⟨?_, ?_, ?_⟩
  · by_cases hname : ng.name = name
    · subst hname
      have hflag : flag = false := by
        rcases hcase with h | h
        · exact h
        · exact absurd rfl h
      subst hflag
      refine ⟨_, lookupAL_update_self glyphs ng.name defaultGlyph _, ?_, ?_⟩ <;>
        simp [hg]
    · refine ⟨g, ?_, rfl, rfl⟩
      unfold import_glyph_step_ufo
      rw [lookupAL_update_ne _ _ _ _ _ hname, hg]
  · refine ⟨_, lookupAL_update_self glyphs ng.name defaultGlyph _, ?_, ?_⟩ <;>
      by_cases hset : ((lookupAL glyphs ng.name).getD defaultGlyph).set = none <;>
      simp [hset]
  · by_cases hname : ng.name = name
    · subst hname
      refine ⟨_, lookupAL_update_self glyphs ng.name defaultGlyph _, ?_, ?_⟩ <;>
        simp [hg]
    · refine ⟨g, ?_, rfl, rfl⟩
      unfold import_glyph_step_main
      rw [lookupAL_update_ne _ _ _ _ _ hname, hg]

/-- Witness for the amended C1 at a concrete map and glyph. -/
theorem C1_amended_step_discipline_witness :
    ((∃ g', lookupAL (import_glyph_step_ufo emptyGlyphData false (str "Bold")
        [(str "A", defaultGlyph)] ngA) (str "A") = some g' ∧
      g'.codepoints = defaultGlyph.codepoints ∧ g'.set = defaultGlyph.set) ∧
    (∃ g', lookupAL (import_glyph_step_ufo emptyGlyphData true (str "Bold")
        [(str "A", defaultGlyph)] ngA) ngA.name = some g' ∧
      g'.codepoints = ngA.codepoints ∧
      g'.set = if ((lookupAL [(str "A", defaultGlyph)] ngA.name).getD defaultGlyph).set = none
        then categorize_glyph emptyGlyphData ngA
        else ((lookupAL [(str "A", defaultGlyph)] ngA.name).getD defaultGlyph).set) ∧
    (∃ g', lookupAL (import_glyph_step_main emptyGlyphData false (str "Bold")
        [(str "A", defaultGlyph)] ngA) (str "A") = some g' ∧
      g'.codepoints = defaultGlyph.codepoints ∧ g'.set = defaultGlyph.set)) :=
  C1_amended_step_discipline emptyGlyphData false (str "Bold") [(str "A", defaultGlyph)]
    ngA (str "A") defaultGlyph (by decide) (Or.inl rfl)

/-! ## C10 groundwork: the two merge implementations -/

theorem lookupAL_isSome_iff_mem_keys {α : Type} (l : List (Str × α)) (k : Str) :
    (lookupAL l k).isSome = true ↔ k ∈ l.map Prod.fst := by
  induction l with
  | nil => simp [lookupAL]
  | cons p rest ih =>
    obtain ⟨k0, v0⟩ := p
    by_cases h0 : k0 = k
    · subst h0
      rw [List.map_cons, List.mem_cons]
      simp only [lookupAL, if_pos rfl, Option.isSome_some]
      exact ⟨fun _ => Or.inl trivial, fun _ => rfl⟩
    · rw [List.map_cons, List.mem_cons]
      simp only [lookupAL, if_neg h0]
      rw [ih]
      constructor
      · exact fun h => Or.inr h
      · rintro (h | h)
        · exact absurd h (fun hh => h0 hh.symm)
        · exact h

theorem load_sources_keys_nodup (fonts : List NoradFont) (acc srcs : List (Str × NoradFont))
    (hacc : (acc.map Prod.fst).Nodup) (h : load_sources acc fonts = .ok srcs) :
    (srcs.map Prod.fst).Nodup := by
  induction fonts generalizing acc with
  | nil =>
    unfold load_sources at h
    injection h with h'
    rwa [← h']
  | cons f fs ih =>
    unfold load_sources at h
    cases hc : containsKeyAL acc (resolved_style_name f) with
    | true => rw [if_pos hc] at h; cases h
    | false =>
      rw [if_neg (by simp [hc])] at h
      apply ih _ _ h
      have hnm : resolved_style_name f ∉ acc.map Prod.fst := by
        intro hmem
        have := (lookupAL_isSome_iff_mem_keys acc (resolved_style_name f)).mpr hmem
        unfold containsKeyAL at hc
        rw [hc] at this
        cases this
      simp [List.nodup_append, hacc, hnm]

theorem updateAL_congr {α : Type} (l : List (Str × α)) (k : Str) (d : α) (f f' : α → α)
    (h : f ((lookupAL l k).getD d) = f' ((lookupAL l k).getD d)) :
    updateAL k d f l = updateAL k d f' l := by
  induction l with
  | nil => simpa [updateAL, lookupAL] using h
  | cons p rest ih =>
    obtain ⟨k0, v0⟩ := p
    by_cases h0 : k0 = k
    · subst h0
      simp [lookupAL] at h
      simp [updateAL, h]
    · simp only [lookupAL, if_neg h0] at h
      simp [updateAL, h0, ih h]

theorem step_main_false_eq_ufo (info : GlyphData) (ln : Str)
    (gs : List (Str × Glyph)) (ng : NoradGlyph) :
    import_glyph_step_main info false ln gs ng = import_glyph_step_ufo info false ln gs ng := rfl

theorem step_main_true_eq_ufo (info : GlyphData) (ln : Str)
    (gs : List (Str × Glyph)) (ng : NoradGlyph)
    (h : ((lookupAL gs ng.name).getD defaultGlyph).set = none) :
    import_glyph_step_main info true ln gs ng = import_glyph_step_ufo info true ln gs ng := by
  unfold import_glyph_step_main import_glyph_step_ufo
  apply updateAL_congr
  simp [h]

theorem lookupAL_step_main_ne (info : GlyphData) (flag : Bool) (ln : Str)
    (gs : List (Str × Glyph)) (ng : NoradGlyph) (k : Str) (h : ng.name ≠ k) :
    lookupAL (import_glyph_step_main info flag ln gs ng) k = lookupAL gs k := by
  unfold import_glyph_step_main
  exact lookupAL_update_ne _ _ _ _ _ h

theorem step_main_false_preserves_sets_none (info : GlyphData) (ln : Str)
    (gs : List (Str × Glyph)) (ng : NoradGlyph)
    (h : ∀ k g, lookupAL gs k = some g → g.set = none) :
    ∀ k g, lookupAL (import_glyph_step_main info false ln gs ng) k = some g → g.set = none := by
  intro k g hk
  by_cases hkn : ng.name = k
  · subst hkn
    unfold import_glyph_step_main at hk
    rw [lookupAL_update_self] at hk
    injection hk with hk'
    rw [← hk']
    simp only []
    cases hl : lookupAL gs ng.name with
    | none => simp [hl, defaultGlyph]
    | some g0 => simp [hl, h ng.name g0 hl]
  · rw [lookupAL_step_main_ne _ _ _ _ _ _ hkn] at hk
    exact h k g hk

theorem fold_steps_false_preserve_sets_none (info : GlyphData) (ln : Str)
    (gl : List NoradGlyph) (gs : List (Str × Glyph))
    (h : ∀ k g, lookupAL gs k = some g → g.set = none) :
    ∀ k g, lookupAL (gl.foldl (import_glyph_step_main info false ln) gs) k = some g →
      g.set = none := by
  induction gl generalizing gs with
  | nil => exact h
  | cons ng rest ih =>
    exact ih _ (step_main_false_preserves_sets_none info ln gs ng h)

theorem others_fold_id (Ls : List NoradLayer)
    (F : List (Str × Glyph) → NoradLayer → List (Str × Glyph))
    (hF : ∀ gs L, L ∈ Ls → L.glyphs = [] → F gs L = gs)
    (hLs : ∀ L ∈ Ls, L.glyphs = []) (gs : List (Str × Glyph)) :
    Ls.foldl F gs = gs := by
  induction Ls generalizing gs with
  | nil => rfl
  | cons L rest ih =>
    rw [List.foldl_cons, hF gs L (List.mem_cons_self L rest) (hLs L (List.mem_cons_self L rest))]
    exact ih (fun gs' L' hL' hg => hF gs' L' (List.mem_cons_of_mem L hL') hg)
      (fun L' hL' => hLs L' (List.mem_cons_of_mem L hL')) gs

theorem source_main_false_eq_ufo (info : GlyphData) (dn : Str)
    (gs : List (Str × Glyph)) (src : Str × NoradFont) (h : src.1 ≠ dn) :
    import_source_main info dn gs src = import_source_ufo info dn gs src := by
  unfold import_source_main import_source_ufo
  rw [(by simp [h] : decide (src.1 = dn) = false)]
  rfl

theorem outer_fold_false_preserves_sets_none (info : GlyphData) (sn : Str)
    (Ls : List NoradLayer) (gs : List (Str × Glyph))
    (h : ∀ k g, lookupAL gs k = some g → g.set = none) :
    ∀ k g, lookupAL
      (Ls.foldl
        (fun gs layer => layer.glyphs.foldl
          (import_glyph_step_main info false (computed_layer_name sn layer false)) gs) gs)
      k = some g → g.set = none := by
  induction Ls generalizing gs with
  | nil => exact h
  | cons L rest ih =>
    rw [List.foldl_cons]
    exact ih _ (fold_steps_false_preserve_sets_none info _ L.glyphs gs h)

theorem source_main_false_preserves_sets_none (info : GlyphData) (dn : Str)
    (gs : List (Str × Glyph)) (src : Str × NoradFont) (hsrc : src.1 ≠ dn)
    (h : ∀ k g, lookupAL gs k = some g → g.set = none) :
    ∀ k g, lookupAL (import_source_main info dn gs src) k = some g → g.set = none := by
  unfold import_source_main
  rw [(by simp [hsrc] : decide (src.1 = dn) = false)]
  exact outer_fold_false_preserves_sets_none info src.1 src.2.other_layers _
    (fold_steps_false_preserve_sets_none info _ src.2.default_layer.glyphs gs h)

theorem fold_default_primary_eq (info : GlyphData) (ln : Str) (gl : List NoradGlyph)
    (gs : List (Str × Glyph))
    (hpre : ∀ ng ∈ gl, ((lookupAL gs ng.name).getD defaultGlyph).set = none)
    (hnd : (gl.map NoradGlyph.name).Nodup) :
    gl.foldl (import_glyph_step_main info true ln) gs =
      gl.foldl (import_glyph_step_ufo info true ln) gs := by
  induction gl generalizing gs with
  | nil => rfl
  | cons ng rest ih =>
    simp only [List.foldl_cons]
    rw [step_main_true_eq_ufo info ln gs ng (hpre ng (List.mem_cons_self ng rest))]
    simp only [List.map_cons, List.nodup_cons] at hnd
    apply ih
    · intro ng' hng'
      have hne : ng.name ≠ ng'.name := by
        intro hcontra
        exact hnd.1 (hcontra ▸ List.mem_map.mpr ⟨ng', hng', rfl⟩)
      rw [show import_glyph_step_ufo info true ln gs ng =
            import_glyph_step_main info true ln gs ng from
          (step_main_true_eq_ufo info ln gs ng (hpre ng (List.mem_cons_self ng rest))).symm]
      rw [lookupAL_step_main_ne info true ln gs ng ng'.name hne]
      exact hpre ng' (List.mem_cons_of_mem ng hng')
    · exact hnd.2

theorem source_default_eq (info : GlyphData) (dn : Str) (gs : List (Str × Glyph))
    (src : Str × NoradFont) (hsrc : src.1 = dn)
    (hnd : (src.2.default_layer.glyphs.map NoradGlyph.name).Nodup)
    (hothers : ∀ L ∈ src.2.other_layers, L.glyphs = [])
    (h : ∀ k g, lookupAL gs k = some g → g.set = none) :
    import_source_main info dn gs src = import_source_ufo info dn gs src := by
  unfold import_source_main import_source_ufo
  rw [(by simp [hsrc] : decide (src.1 = dn) = true)]
  have hpre : ∀ ng ∈ src.2.default_layer.glyphs,
      ((lookupAL gs ng.name).getD defaultGlyph).set = none := by
    intro ng _
    cases hl : lookupAL gs ng.name with
    | none => simp [defaultGlyph]
    | some g0 => simp [h ng.name g0 hl]
  rw [fold_default_primary_eq info _ _ gs hpre hnd]
  rw [others_fold_id src.2.other_layers _
      (fun gs' L _ hg => by rw [hg]; rfl) hothers _,
    others_fold_id src.2.other_layers _
      (fun gs' L _ hg => by rw [hg]; rfl) hothers _]

theorem srcs_fold_eq_of_no_default (info : GlyphData) (dn : Str)
    (srcs : List (Str × NoradFont)) (gs : List (Str × Glyph))
    (h : dn ∉ srcs.map Prod.fst) :
    srcs.foldl (import_source_main info dn) gs = srcs.foldl (import_source_ufo info dn) gs := by
  induction srcs generalizing gs with
  | nil => rfl
  | cons src rest ih =>
    simp only [List.map_cons, List.mem_cons, not_or] at h
    simp only [List.foldl_cons]
    rw [source_main_false_eq_ufo info dn gs src (fun hc => h.1 hc.symm)]
    exact ih _ h.2

theorem srcs_fold_eq (info : GlyphData) (dn : Str) (srcs : List (Str × NoradFont))
    (gs : List (Str × Glyph))
    (hsets : ∀ k g, lookupAL gs k = some g → g.set = none)
    (hnd : (srcs.map Prod.fst).Nodup)
    (hdef : ∀ p ∈ srcs, p.1 = dn →
      (p.2.default_layer.glyphs.map NoradGlyph.name).Nodup ∧
      ∀ L ∈ p.2.other_layers, L.glyphs = []) :
    srcs.foldl (import_source_main info dn) gs = srcs.foldl (import_source_ufo info dn) gs := by
  induction srcs generalizing gs with
  | nil => rfl
  | cons src rest ih =>
    simp only [List.map_cons, List.nodup_cons] at hnd
    simp only [List.foldl_cons]
    by_cases hsrc : src.1 = dn
    · obtain ⟨hng, hoth⟩ := hdef src (List.mem_cons_self src rest) hsrc
      rw [source_default_eq info dn gs src hsrc hng hoth hsets]
      apply srcs_fold_eq_of_no_default
      rw [← hsrc]
      exact hnd.1
    · rw [source_main_false_eq_ufo info dn gs src hsrc]
      have hsets' := source_main_false_preserves_sets_none info dn gs src hsrc hsets
      rw [source_main_false_eq_ufo info dn gs src hsrc] at hsets'
      exact ih _ hsets' hnd.2 (fun p hp => hdef p (List.mem_cons_of_mem src hp))

/-! ## C10: the two import implementations -/

/-- Counterexample for C10: on a "Regular" source whose background layer
also lists glyph "A" (without codepoints), the main.rs import ends with
empty codepoints for "A" while the ufo.rs method keeps U+0061; the two
results differ. -/
theorem C10_counterexample :
    (import_ufos_into_fontgarden emptyGlyphData [cxFont]).map
        (fun o => o.map fun fg => (lookupAL fg.glyphs (str "A")).map Glyph.codepoints) =
      .ok (some (some ([] : List Char))) ∧
    (Fontgarden.import_ufo_sources ⟨[]⟩ emptyGlyphData [cxFont]).map
        (fun o => o.map fun fg => (lookupAL fg.glyphs (str "A")).map Glyph.codepoints) =
      .ok (some (some ['a'])) ∧
    import_ufos_into_fontgarden emptyGlyphData [cxFont] ≠
      Fontgarden.import_ufo_sources ⟨[]⟩ emptyGlyphData [cxFont] := by
  refine ⟨rfl, rfl, ?_⟩
  intro h
  have h2 := congrArg
    (fun r => r.map fun o => o.map fun fg => (lookupAL fg.glyphs (str "A")).map Glyph.codepoints) h
  have h3 : (Except.ok (some (some ([] : List Char)))
      : Except SourceLoadError (Option (Option (List Char)))) = .ok (some (some ['a'])) := h2
  simp at h3

/-- C10 amended: the free function `import_ufos_into_fontgarden` (main.rs)
and the method `Fontgarden::import_ufo_sources` (ufo.rs) applied to an
empty project produce equal results whenever the default source's
non-primary layers carry no glyphs (and its primary layer lists each glyph
once); in general they differ, because main.rs applies the codepoint/set
update during every layer of the default source. -/
theorem C10_amended_import_agreement (info : GlyphData) (fonts : List NoradFont)
    (hdef : ∀ srcs, load_sources [] fonts = .ok srcs →
      ∀ p ∈ srcs, p.1 = default_source_name srcs →
        (p.2.default_layer.glyphs.map NoradGlyph.name).Nodup ∧
        ∀ L ∈ p.2.other_layers, L.glyphs = []) :
    import_ufos_into_fontgarden info fonts =
      Fontgarden.import_ufo_sources ⟨[]⟩ info fonts := by
  unfold import_ufos_into_fontgarden Fontgarden.import_ufo_sources
  cases hls : load_sources [] fonts with
  | error e => rfl
  | ok srcs =>
    have hnd : (srcs.map Prod.fst).Nodup :=
      load_sources_keys_nodup fonts [] srcs (by simp) hls
    have hfold := srcs_fold_eq info (default_source_name srcs) srcs []
      (fun k g hk => by cases hk) hnd (hdef srcs hls)
    simp only [hfold]

/-- Witness for the amended C10 at a single-source input. -/
theorem C10_amended_import_agreement_witness :
    import_ufos_into_fontgarden emptyGlyphData [w10font] =
      Fontgarden.import_ufo_sources ⟨[]⟩ emptyGlyphData [w10font] :=
  C10_amended_import_agreement emptyGlyphData [w10font] (by
    intro srcs h
    have h' : (Except.ok [(str "Regular", w10font)]
        : Except SourceLoadError (List (Str × NoradFont))) = .ok srcs := h
    injection h' with h''
    rw [← h'']
    intro p hp _
    simp only [List.mem_singleton] at hp
    rw [hp]
    exact ⟨by decide, by intro L hL; cases hL⟩)

/-! ## C9: the Bold/Regular two-source scenario -/

/-- C9: importing a "Bold" and a "Regular" source, each defining exactly
glyph "A" in its primary layer, produces one glyph "A" whose layer map has
exactly the keys "Bold" and "Regular" (each holding the converted layer of
that source) and whose codepoints are the "Regular" source's; the two input
orders give the same map up to Rust `HashMap` equality. -/
theorem C9_two_source_import (info : GlyphData) (ngB ngR : NoradGlyph)
    (dlnB dlnR : Str)
    (hnB : ngB.name = str "A") (hnR : ngR.name = str "A") :
    import_ufos_into_fontgarden info
        [⟨some (str "Bold"), ⟨dlnB, [ngB]⟩, [], [], []⟩,
         ⟨some (str "Regular"), ⟨dlnR, [ngR]⟩, [], [], []⟩] =
      .ok (some ⟨[(str "A",
        ⟨ngR.codepoints,
         [(str "Bold", layer_of_norad ngB), (str "Regular", layer_of_norad ngR)],
         .unassigned, none, categorize_glyph info ngR⟩)]⟩) ∧
    import_ufos_into_fontgarden info
        [⟨some (str "Regular"), ⟨dlnR, [ngR]⟩, [], [], []⟩,
         ⟨some (str "Bold"), ⟨dlnB, [ngB]⟩, [], [], []⟩] =
      .ok (some ⟨[(str "A",
        ⟨ngR.codepoints,
         [(str "Regular", layer_of_norad ngR), (str "Bold", layer_of_norad ngB)],
         .unassigned, none, categorize_glyph info ngR⟩)]⟩) ∧
    fgEquiv
      ⟨[(str "A",
        ⟨ngR.codepoints,
         [(str "Bold", layer_of_norad ngB), (str "Regular", layer_of_norad ngR)],
         .unassigned, none, categorize_glyph info ngR⟩)]⟩
      ⟨[(str "A",
        ⟨ngR.codepoints,
         [(str "Regular", layer_of_norad ngR), (str "Bold", layer_of_norad ngB)],
         .unassigned, none, categorize_glyph info ngR⟩)]⟩ := by
  refine ⟨?_, ?_, ?_⟩
  · simp +decide [import_ufos_into_fontgarden, load_sources, resolved_style_name,
      containsKeyAL, lookupAL, default_source_name, import_source_main,
      import_glyph_step_main, computed_layer_name, finish_import,
      apply_postscript_names, apply_opentype_categories, updateAL, insertAL,
      defaultGlyph, hnB, hnR]
  · simp +decide [import_ufos_into_fontgarden, load_sources, resolved_style_name,
      containsKeyAL, lookupAL, default_source_name, import_source_main,
      import_glyph_step_main, computed_layer_name, finish_import,
      apply_postscript_names, apply_opentype_categories, updateAL, insertAL,
      defaultGlyph, hnB, hnR]
  · intro k
    by_cases hk : str "A" = k
    · rw [← hk]
      simp only [lookupAL, if_pos rfl, optionRel, glyphEquiv]
      refine ⟨rfl, ?_, rfl, rfl, rfl⟩
      intro k'
      by_cases h1 : str "Bold" = k'
      · rw [← h1]
        simp only [lookupAL, if_pos rfl, if_neg (by decide : ¬ str "Regular" = str "Bold")]
      · by_cases h2 : str "Regular" = k'
        · rw [← h2]
          simp only [lookupAL, if_pos rfl,
            if_neg (by decide : ¬ str "Bold" = str "Regular")]
        · simp only [lookupAL, if_neg h1, if_neg h2]
    · simp only [lookupAL, if_neg hk, optionRel]

/-- Witness for C9 at concrete "Bold" and "Regular" sources. -/
theorem C9_two_source_import_witness :
    (ngA0.name = str "A" ∧ ngA.name = str "A") ∧
    import_ufos_into_fontgarden emptyGlyphData
        [⟨some (str "Bold"), ⟨str "foreground", [ngA0]⟩, [], [], []⟩,
         ⟨some (str "Regular"), ⟨str "foreground", [ngA]⟩, [], [], []⟩] =
      .ok (some ⟨[(str "A",
        ⟨ngA.codepoints,
         [(str "Bold", layer_of_norad ngA0), (str "Regular", layer_of_norad ngA)],
         .unassigned, none, categorize_glyph emptyGlyphData ngA⟩)]⟩) :=
  ⟨⟨by decide, by decide⟩,
   (C9_two_source_import emptyGlyphData ngA0 ngA (str "foreground") (str "foreground")
     (by decide) (by decide)).1⟩

/-! ## C7 groundwork: export invariants -/

theorem mem_insertAL {α : Type} {l : List (Str × α)} {k : Str} {v : α} {q : Str × α}
    (h : q ∈ insertAL k v l) : q = (k, v) ∨ q ∈ l := by
  induction l with
  | nil => simpa [insertAL] using h
  | cons p rest ih =>
    obtain ⟨k0, v0⟩ := p
    by_cases h0 : k0 = k
    · rw [insertAL, if_pos h0] at h
      rcases List.mem_cons.mp h with h1 | h1
      · exact Or.inl h1
      · exact Or.inr (List.mem_cons_of_mem _ h1)
    · rw [insertAL, if_neg h0] at h
      rcases List.mem_cons.mp h with h1 | h1
      · exact Or.inr (h1 ▸ List.mem_cons_self _ _)
      · rcases ih h1 with h2 | h2
        · exact Or.inl h2
        · exact Or.inr (List.mem_cons_of_mem _ h2)

theorem lookupAL_mem {α : Type} {l : List (Str × α)} {k : Str} {v : α}
    (h : lookupAL l k = some v) : (k, v) ∈ l := by
  induction l with
  | nil => cases h
  | cons p rest ih =>
    obtain ⟨k0, v0⟩ := p
    by_cases h0 : k0 = k
    · rw [lookupAL, if_pos h0] at h
      injection h with h'
      subst h0
      subst h'
      exact List.mem_cons_self _ _
    · rw [lookupAL, if_neg h0] at h
      exact List.mem_cons_of_mem _ (ih h)

theorem export_to_ufo_glyph_fields (valid : Str → Bool) (l : Layer) (name : Str)
    (cps : Option (List Char)) (g : UfoGlyph)
    (h : l.export_to_ufo_glyph valid name cps = .ok g) :
    g.codepoints = cps.getD [] ∧ g.name = name := by
  unfold Layer.export_to_ufo_glyph at h
  cases hA : l.anchors.mapM (anchor_to_norad valid) with
  | none => rw [hA] at h; cases h
  | some ufo_anchors =>
    rw [hA] at h
    cases hC : l.components.mapM (component_to_norad valid) with
    | none => rw [hC] at h; cases h
    | some comps =>
      rw [hC] at h
      injection h with h'
      rw [← h']
      cases cps <;> cases hy : l.y_advance <;> cases hv : l.vertical_origin <;>
        simp [norad_glyph_new, hy, hv]

theorem fontCodepointsOK_default (stored : List (Str × Glyph)) :
    fontCodepointsOK stored ufoFontDefault := by
  constructor
  · intro q hq
    cases hq
  · intro r hr
    cases hr

theorem fontCodepointsOK_getD (stored : List (Str × Glyph))
    (ufos : List (Str × UfoFont)) (k : Str)
    (h : ∀ p ∈ ufos, fontCodepointsOK stored p.2) :
    fontCodepointsOK stored ((lookupAL ufos k).getD ufoFontDefault) := by
  cases hl : lookupAL ufos k with
  | none => exact fontCodepointsOK_default stored
  | some f => exact h (k, f) (lookupAL_mem hl)

theorem export_layer_step_ufos_char (valid : Str → Bool) (gname : Str) (glyph : Glyph)
    (acc acc' : ExportAcc) (e : Str × Layer)
    (hstep : export_layer_step valid gname glyph acc e = .ok acc') :
    (∃ base suffix u,
      split_once '.' e.1 = some (base, suffix) ∧
      e.2.export_to_ufo_glyph valid gname none = .ok u ∧
      acc'.ufos = insertAL base
        { (lookupAL acc.ufos base).getD ufoFontDefault with
          named_layers := insertAL suffix
            (((lookupAL ((lookupAL acc.ufos base).getD ufoFontDefault).named_layers
                suffix).getD ⟨[]⟩).insert_glyph u)
            ((lookupAL acc.ufos base).getD ufoFontDefault).named_layers }
        acc.ufos) ∨
    (∃ u,
      split_once '.' e.1 = none ∧
      e.2.export_to_ufo_glyph valid gname (some glyph.codepoints) = .ok u ∧
      acc'.ufos = insertAL e.1
        { (lookupAL acc.ufos e.1).getD ufoFontDefault with
          default_layer :=
            ((lookupAL acc.ufos e.1).getD ufoFontDefault).default_layer.insert_glyph u }
        acc.ufos) := by
  unfold export_layer_step at hstep
  cases hsplit : split_once '.' e.1 with
  | some pr =>
    rw [hsplit] at hstep
    simp only [] at hstep
    cases hexp : e.2.export_to_ufo_glyph valid gname none with
    | error er => rw [hexp] at hstep; simp only [] at hstep; cases hstep
    | ok u =>
      rw [hexp] at hstep
      simp only [] at hstep
      by_cases hval : valid pr.2
      · rw [if_pos hval] at hstep
        injection hstep with h'
        exact Or.inl ⟨pr.1, pr.2, u, rfl, rfl, by rw [← h']⟩
      · rw [if_neg hval] at hstep
        cases hstep
  | none =>
    rw [hsplit] at hstep
    simp only [] at hstep
    cases hexp : e.2.export_to_ufo_glyph valid gname (some glyph.codepoints) with
    | error er => rw [hexp] at hstep; simp only [] at hstep; cases hstep
    | ok u =>
      rw [hexp] at hstep
      simp only [] at hstep
      cases hps : glyph.postscript_name with
      | none =>
        rw [hps] at hstep
        simp only [] at hstep
        by_cases hcat : glyph.opentype_category ≠ .unassigned
        · rw [if_pos hcat] at hstep
          injection hstep with h'
          exact Or.inr ⟨u, rfl, rfl, by rw [← h']⟩
        · rw [if_neg hcat] at hstep
          injection hstep with h'
          exact Or.inr ⟨u, rfl, rfl, by rw [← h']⟩
      | some psn =>
        rw [hps] at hstep
        simp only [] at hstep
        by_cases hcat : glyph.opentype_category ≠ .unassigned
        · rw [if_pos hcat] at hstep
          injection hstep with h'
          exact Or.inr ⟨u, rfl, rfl, by rw [← h']⟩
        · rw [if_neg hcat] at hstep
          injection hstep with h'
          exact Or.inr ⟨u, rfl, rfl, by rw [← h']⟩

theorem export_layer_step_inv (valid : Str → Bool) (stored : List (Str × Glyph))
    (gname : Str) (glyph : Glyph) (hmem : (gname, glyph) ∈ stored)
    (acc acc' : ExportAcc) (e : Str × Layer)
    (hstep : export_layer_step valid gname glyph acc e = .ok acc')
    (hinv : ∀ p ∈ acc.ufos, fontCodepointsOK stored p.2) :
    ∀ p ∈ acc'.ufos, fontCodepointsOK stored p.2 := by
  rcases export_layer_step_ufos_char valid gname glyph acc acc' e hstep with
    ⟨base, suffix, u, hsplit, hexp, hufos⟩ | ⟨u, hsplit, hexp, hufos⟩
  · have hu : u.codepoints = [] :=
      (export_to_ufo_glyph_fields valid e.2 gname none u hexp).1
    have hufo0 : fontCodepointsOK stored ((lookupAL acc.ufos base).getD ufoFontDefault) :=
      fontCodepointsOK_getD stored acc.ufos base hinv
    intro p hp
    rw [hufos] at hp
    rcases mem_insertAL hp with hpeq | hpold
    · subst hpeq
      constructor
      · intro q hq r hr
        rcases mem_insertAL hq with hqeq | hqold
        · subst hqeq
          rcases mem_insertAL hr with hreq | hrold
          · subst hreq
            exact hu
          · cases hlt : lookupAL
                ((lookupAL acc.ufos base).getD ufoFontDefault).named_layers suffix with
            | none =>
              rw [hlt] at hrold
              cases hrold
            | some t =>
              rw [hlt] at hrold
              exact hufo0.1 (suffix, t) (lookupAL_mem hlt) r hrold
        · exact hufo0.1 q hqold r hr
      · intro r hr
        exact hufo0.2 r hr
    · exact hinv p hpold
  · have hu : u.codepoints = glyph.codepoints :=
      (export_to_ufo_glyph_fields valid e.2 gname (some glyph.codepoints) u hexp).1
    have hun : u.name = gname :=
      (export_to_ufo_glyph_fields valid e.2 gname (some glyph.codepoints) u hexp).2
    have hufo0 : fontCodepointsOK stored ((lookupAL acc.ufos e.1).getD ufoFontDefault) :=
      fontCodepointsOK_getD stored acc.ufos e.1 hinv
    intro p hp
    rw [hufos] at hp
    rcases mem_insertAL hp with hpeq | hpold
    · subst hpeq
      constructor
      · intro q hq r hr
        exact hufo0.1 q hq r hr
      · intro r hr
        rcases mem_insertAL hr with hreq | hrold
        · subst hreq
          exact ⟨(gname, glyph), hmem, hun, hu⟩
        · exact hufo0.2 r hrold
    · exact hinv p hpold

theorem export_layers_inv (valid : Str → Bool) (stored : List (Str × Glyph))
    (gname : Str) (glyph : Glyph) (hmem : (gname, glyph) ∈ stored)
    (es : List (Str × Layer)) :
    ∀ acc acc', export_layers valid gname glyph acc es = .ok acc' →
      (∀ p ∈ acc.ufos, fontCodepointsOK stored p.2) →
      ∀ p ∈ acc'.ufos, fontCodepointsOK stored p.2 := by
  induction es with
  | nil =>
    intro acc acc' h hinv
    unfold export_layers at h
    injection h with h'
    rw [← h']
    exact hinv
  | cons e es ih =>
    intro acc acc' h hinv
    unfold export_layers at h
    cases hstep : export_layer_step valid gname glyph acc e with
    | error er => rw [hstep] at h; cases h
    | ok acc1 =>
      rw [hstep] at h
      exact ih acc1 acc' h
        (export_layer_step_inv valid stored gname glyph hmem acc acc1 e hstep hinv)

theorem export_glyphs_inv (valid : Str → Bool) (source_names : List Str)
    (stored : List (Str × Glyph)) (ps : List (Str × Glyph)) :
    ∀ acc acc', (∀ p ∈ ps, p ∈ stored) →
      export_glyphs valid source_names acc ps = .ok acc' →
      (∀ p ∈ acc.ufos, fontCodepointsOK stored p.2) →
      ∀ p ∈ acc'.ufos, fontCodepointsOK stored p.2 := by
  induction ps with
  | nil =>
    intro acc acc' _ h hinv
    unfold export_glyphs at h
    injection h with h'
    rw [← h']
    exact hinv
  | cons p ps ih =>
    intro acc acc' hsub h hinv
    unfold export_glyphs at h
    by_cases hval : valid p.1
    · rw [if_pos hval] at h
      cases hel : export_layers valid p.1 p.2 acc
          (p.2.layers.filter fun q =>
            decide (source_names = []) || decide (q.1 ∈ source_names)) with
      | error er => rw [hel] at h; cases h
      | ok acc1 =>
        rw [hel] at h
        have hm : (p.1, p.2) ∈ stored := hsub p (List.mem_cons_self p ps)
        exact ih acc1 acc' (fun q hq => hsub q (List.mem_cons_of_mem p hq)) h
          (export_layers_inv valid stored p.1 p.2 hm _ acc acc1 hel hinv)
    · rw [if_neg hval] at h
      cases h

theorem map_font_fields_preserve (stored : List (Str × Glyph))
    (f : Str → UfoFont → UfoFont)
    (hf : ∀ k u, (f k u).named_layers = u.named_layers ∧
      (f k u).default_layer = u.default_layer)
    (ufos : List (Str × UfoFont)) (h : ∀ p ∈ ufos, fontCodepointsOK stored p.2) :
    ∀ p ∈ ufos.map (fun p => (p.1, f p.1 p.2)), fontCodepointsOK stored p.2 := by
  intro p hp
  rcases List.mem_map.mp hp with ⟨q, hq, hqe⟩
  have hok := h q hq
  rw [← hqe]
  unfold fontCodepointsOK at hok ⊢
  rw [(hf q.1 q.2).1, (hf q.1 q.2).2]
  exact hok

theorem attach_stamp_inv (stored : List (Str × Glyph)) (psd cats : List (Str × Str))
    (ufos : List (Str × UfoFont)) (h : ∀ p ∈ ufos, fontCodepointsOK stored p.2) :
    ∀ p ∈ attach_lib_dicts psd cats (stamp_style_names ufos), fontCodepointsOK stored p.2 := by
  have h1 : ∀ p ∈ stamp_style_names ufos, fontCodepointsOK stored p.2 := by
    unfold stamp_style_names
    exact map_font_fields_preserve stored (fun k u => { u with style_name := some k })
      (fun k u => ⟨rfl, rfl⟩) ufos h
  unfold attach_lib_dicts
  by_cases hps : psd ≠ []
  · rw [if_pos hps]
    have h2 : ∀ p ∈ (stamp_style_names ufos).map
        (fun p => (p.1, { p.2 with lib_postscript_names := psd })),
        fontCodepointsOK stored p.2 :=
      map_font_fields_preserve stored (fun _ u => { u with lib_postscript_names := psd })
        (fun k u => ⟨rfl, rfl⟩) _ h1
    by_cases hc : cats ≠ []
    · rw [if_pos hc]
      exact map_font_fields_preserve stored
        (fun _ u => { u with lib_opentype_categories := cats })
        (fun k u => ⟨rfl, rfl⟩) _ h2
    · rw [if_neg hc]
      exact h2
  · rw [if_neg hps]
    by_cases hc : cats ≠ []
    · rw [if_pos hc]
      exact map_font_fields_preserve stored
        (fun _ u => { u with lib_opentype_categories := cats })
        (fun k u => ⟨rfl, rfl⟩) _ h1
    · rw [if_neg hc]
      exact h1

/-! ## C7: codepoint placement in export -/

/-- C7: in every UFO object the export engine returns, a glyph object
placed in a named (secondary) layer — built from a stored layer name
containing a `.` — carries no codepoints, while a glyph object in a
default (primary) layer carries the codepoints of the stored glyph of that
name. -/
theorem C7_export_codepoint_placement (valid : Str → Bool) (fg : Fontgarden)
    (source_names : List Str) (ufos : List (Str × UfoFont))
    (hok : fg.export_ufo_sources valid source_names = .ok ufos) :
    ∀ p ∈ ufos, fontCodepointsOK fg.glyphs p.2 := by
  unfold Fontgarden.export_ufo_sources at hok
  cases heg : export_glyphs valid source_names ⟨[], [], []⟩ fg.glyphs with
  | error er => rw [heg] at hok; cases hok
  | ok acc =>
    rw [heg] at hok
    injection hok with h'
    rw [← h']
    apply attach_stamp_inv
    exact export_glyphs_inv valid source_names fg.glyphs fg.glyphs ⟨[], [], []⟩ acc
      (fun q hq => hq) heg (fun q hq => by cases hq)

/-- Witness for C7 at a concrete project with a primary and a secondary
layer for one glyph. -/
theorem C7_export_codepoint_placement_witness :
    (Fontgarden.export_ufo_sources (fun _ => true) w7fg [] = .ok w7out) ∧
    ∀ p ∈ w7out, fontCodepointsOK w7fg.glyphs p.2 :=
  ⟨rfl, C7_export_codepoint_placement (fun _ => true) w7fg [] w7out rfl⟩

/-! ## C4 groundwork: the codepoint cell codec round-trips -/

theorem hexVal_hexDigitChar (d : Nat) (h : d < 16) :
    hexVal (hexDigitChar d) = some d := by
  interval_cases d <;> decide

theorem hexDigitChar_not_ws (d : Nat) (h : d < 16) :
    isWsChar (hexDigitChar d) = false := by
  interval_cases d <;> decide

theorem parseHexGo_digits (ds : List Nat) : ∀ acc : Nat, (∀ d ∈ ds, d < 16) →
    acc * 16 ^ ds.length + Nat.ofDigits 16 ds.reverse < 4294967296 →
    parseHexGo acc (ds.map hexDigitChar) =
      some (acc * 16 ^ ds.length + Nat.ofDigits 16 ds.reverse) := by
  induction ds with
  | nil =>
    intro acc _ _
    simp [parseHexGo, Nat.ofDigits]
  | cons d ds ih =>
    intro acc hd hbound
    have hd16 : d < 16 := hd d (List.mem_cons_self d ds)
    have hkey : Nat.ofDigits 16 (d :: ds).reverse =
        Nat.ofDigits 16 ds.reverse + 16 ^ ds.length * d := by
      rw [List.reverse_cons, Nat.ofDigits_append]
      simp [Nat.ofDigits_singleton]
    have htotal : acc * 16 ^ (d :: ds).length + Nat.ofDigits 16 (d :: ds).reverse =
        (acc * 16 + d) * 16 ^ ds.length + Nat.ofDigits 16 ds.reverse := by
      rw [hkey, List.length_cons, pow_succ]
      ring
    have hacc : acc * 16 + d < 4294967296 := by
      have h1 : 1 ≤ 16 ^ ds.length := Nat.one_le_pow _ _ (by norm_num)
      have h2 : acc * 16 + d ≤ (acc * 16 + d) * 16 ^ ds.length +
          Nat.ofDigits 16 ds.reverse := by
        nlinarith [Nat.zero_le (Nat.ofDigits 16 ds.reverse)]
      rw [htotal] at hbound
      omega
    rw [List.map_cons]
    unfold parseHexGo
    rw [hexVal_hexDigitChar d hd16]
    simp only []
    rw [if_pos hacc]
    rw [ih (acc * 16 + d) (fun x hx => hd x (List.mem_cons_of_mem d hx))
      (by rw [← htotal]; exact hbound)]
    rw [htotal]

theorem parseHexGo_zeros (k : Nat) (s : Str) :
    parseHexGo 0 (List.replicate k '0' ++ s) = parseHexGo 0 s := by
  induction k with
  | zero => rfl
  | succ k ih =>
    rw [List.replicate_succ, List.cons_append]
    exact ih

theorem formatHex04_ne_nil (n : Nat) : formatHex04 n ≠ [] := by
  intro h
  have hl := congrArg List.length h
  simp only [formatHex04, List.length_append, List.length_replicate,
    List.length_nil] at hl
  omega

theorem formatHex04_no_ws (n : Nat) : ∀ c ∈ formatHex04 n, isWsChar c = false := by
  intro c hc
  unfold formatHex04 at hc
  rcases List.mem_append.mp hc with hrep | hrev
  · rw [List.eq_of_mem_replicate hrep]
    decide
  · rw [List.mem_reverse] at hrev
    rcases List.mem_map.mp hrev with ⟨d, hd, hde⟩
    rw [← hde]
    exact hexDigitChar_not_ws d (Nat.digits_lt_base (by norm_num) hd)

theorem from_str_radix16_formatHex04 (n : Nat) (h : n < 4294967296) :
    from_str_radix16 (formatHex04 n) = some n := by
  unfold from_str_radix16
  rw [if_neg (by simpa using formatHex04_ne_nil n)]
  unfold formatHex04
  simp only []
  rw [← List.map_reverse]
  rw [parseHexGo_zeros]
  rw [parseHexGo_digits ((Nat.digits 16 n).reverse) 0
    (fun d hd => Nat.digits_lt_base (by norm_num) (List.mem_reverse.mp hd))
    (by simpa [Nat.ofDigits_digits] using h)]
  simp [Nat.ofDigits_digits]

theorem char_try_from_toNat (c : Char) : char_try_from c.toNat = some c := by
  unfold char_try_from
  rw [dif_pos (show c.toNat.isValidChar from c.valid)]
  congr 1

theorem char_toNat_lt (c : Char) : c.toNat < 4294967296 := c.val.toNat_lt

theorem takeWhile_all_append (p : Char → Bool) (l1 l2 : Str) (h : ∀ c ∈ l1, p c = true) :
    (l1 ++ l2).takeWhile p = l1 ++ l2.takeWhile p := by
  induction l1 with
  | nil => simp
  | cons c t ih =>
    have hc := h c (List.mem_cons_self c t)
    simp [List.takeWhile_cons, hc, ih (fun x hx => h x (List.mem_cons_of_mem c hx))]

theorem dropWhile_all_append (p : Char → Bool) (l1 l2 : Str) (h : ∀ c ∈ l1, p c = true) :
    (l1 ++ l2).dropWhile p = l2.dropWhile p := by
  induction l1 with
  | nil => simp
  | cons c t ih =>
    have hc := h c (List.mem_cons_self c t)
    simp [List.dropWhile_cons, hc, ih (fun x hx => h x (List.mem_cons_of_mem c hx))]

theorem split_ws_fuel_congr : ∀ f1 : Nat, ∀ s : Str, ∀ f2 : Nat,
    s.length ≤ f1 → s.length ≤ f2 → split_ws_fuel f1 s = split_ws_fuel f2 s := by
  intro f1
  induction f1 with
  | zero =>
    intro s f2 h1 _
    have hs : s = [] := List.eq_nil_of_length_eq_zero (Nat.le_zero.mp h1)
    subst hs
    cases f2 <;> rfl
  | succ f ih =>
    intro s f2 h1 h2
    cases s with
    | nil => cases f2 <;> rfl
    | cons c rest =>
      cases f2 with
      | zero =>
        rw [List.length_cons] at h2
        omega
      | succ f2' =>
        rw [List.length_cons] at h1 h2
        simp only [split_ws_fuel]
        by_cases hw : isWsChar c
        · rw [if_pos hw, if_pos hw]
          exact ih rest f2' (by omega) (by omega)
        · rw [if_neg hw, if_neg hw]
          congr 1
          exact ih (rest.dropWhile fun x => !isWsChar x) f2'
            (le_trans (List.dropWhile_sublist _).length_le (by omega))
            (le_trans (List.dropWhile_sublist _).length_le (by omega))

theorem split_ws_cons_eq (c : Char) (rest : Str) :
    split_ws (c :: rest) =
      if isWsChar c then split_ws rest
      else (c :: rest.takeWhile (fun x => !isWsChar x)) ::
        split_ws (rest.dropWhile (fun x => !isWsChar x)) := by
  show split_ws_fuel (rest.length + 1) (c :: rest) = _
  simp only [split_ws_fuel]
  by_cases hw : isWsChar c
  · rw [if_pos hw, if_pos hw]
    rfl
  · rw [if_neg hw, if_neg hw]
    congr 1
    exact split_ws_fuel_congr rest.length _ _
      (List.dropWhile_sublist _).length_le (le_refl _)

theorem split_ws_token_append (t rest : Str) (hne : t ≠ [])
    (hws : ∀ c ∈ t, isWsChar c = false) :
    split_ws (t ++ ' ' :: rest) = t :: split_ws rest := by
  cases t with
  | nil => exact absurd rfl hne
  | cons c t' =>
    have hc : isWsChar c = false := hws c (List.mem_cons_self c t')
    have ht' : ∀ x ∈ t', (fun x => !isWsChar x) x = true := by
      intro x hx
      simp [hws x (List.mem_cons_of_mem c hx)]
    rw [List.cons_append]
    rw [split_ws_cons_eq]
    rw [if_neg (by simp [hc])]
    rw [takeWhile_all_append _ t' (' ' :: rest) ht',
      dropWhile_all_append _ t' (' ' :: rest) ht']
    rw [List.takeWhile_cons, List.dropWhile_cons]
    rw [(by decide : isWsChar ' ' = true)]
    simp only [Bool.not_true, Bool.false_eq_true, if_false, List.append_nil]
    rw [split_ws_cons_eq]
    rw [if_pos (by decide : isWsChar ' ' = true)]

theorem split_ws_single (t : Str) (hne : t ≠ [])
    (hws : ∀ c ∈ t, isWsChar c = false) :
    split_ws t = [t] := by
  cases t with
  | nil => exact absurd rfl hne
  | cons c t' =>
    have hc : isWsChar c = false := hws c (List.mem_cons_self c t')
    have ht' : ∀ x ∈ t', (fun x => !isWsChar x) x = true := by
      intro x hx
      simp [hws x (List.mem_cons_of_mem c hx)]
    rw [split_ws_cons_eq]
    rw [if_neg (by simp [hc])]
    have h1 : t'.takeWhile (fun x => !isWsChar x) = t' := by
      have := takeWhile_all_append (fun x => !isWsChar x) t' [] ht'
      simpa using this
    have h2 : t'.dropWhile (fun x => !isWsChar x) = [] := by
      have := dropWhile_all_append (fun x => !isWsChar x) t' [] ht'
      simpa using this
    rw [h1, h2]
    rw [show split_ws [] = [] from rfl]

theorem split_ws_joinSpace (ts : List Str) (hne : ∀ t ∈ ts, t ≠ [])
    (hws : ∀ t ∈ ts, ∀ c ∈ t, isWsChar c = false) :
    split_ws (joinSpace ts) = ts := by
  induction ts with
  | nil => rfl
  | cons t ts ih =>
    cases ts with
    | nil => exact split_ws_single t (hne t (by simp)) (hws t (by simp))
    | cons t2 ts2 =>
      show split_ws (t ++ ' ' :: joinSpace (t2 :: ts2)) = _
      rw [split_ws_token_append t _ (hne t (by simp)) (hws t (by simp))]
      rw [ih (fun x hx => hne x (List.mem_cons_of_mem t hx))
        (fun x hx => hws x (List.mem_cons_of_mem t hx))]

theorem codepoints_parse_go_tokens (cps : List Char) : ∀ acc : List Char,
    (acc ++ cps).Nodup →
    codepoints_parse_go acc (cps.map fun c => formatHex04 c.toNat) = some (acc ++ cps) := by
  induction cps with
  | nil =>
    intro acc _
    simp [codepoints_parse_go]
  | cons c rest ih =>
    intro acc h
    rw [List.map_cons]
    unfold codepoints_parse_go
    rw [from_str_radix16_formatHex04 c.toNat (char_toNat_lt c)]
    simp only []
    rw [char_try_from_toNat c]
    simp only []
    have hcnotin : c ∉ acc := by
      intro hmem
      rcases List.nodup_append.mp h with ⟨_, _, hdisj⟩
      exact hdisj hmem (List.mem_cons_self c rest)
    unfold codepoints_insert
    rw [if_neg hcnotin]
    have hassoc : acc ++ [c] ++ rest = acc ++ c :: rest := by simp
    rw [ih (acc ++ [c]) (by rw [hassoc]; exact h)]
    rw [hassoc]

theorem codepoints_roundtrip (cps : List Char) (hnd : cps.Nodup) :
    codepoints_deserialize (codepoints_serialize cps) = some cps := by
  unfold codepoints_deserialize codepoints_serialize
  rw [split_ws_joinSpace _
    (by
      intro t ht
      rcases List.mem_map.mp ht with ⟨c, _, hce⟩
      rw [← hce]
      exact formatHex04_ne_nil c.toNat)
    (by
      intro t ht
      rcases List.mem_map.mp ht with ⟨c, _, hce⟩
      rw [← hce]
      exact formatHex04_no_ws c.toNat)]
  exact codepoints_parse_go_tokens cps [] (by simpa using hnd)

theorem category_roundtrip (c : OpenTypeCategory) :
    category_from_str (category_to_str c) = some c := by
  cases c <;> rfl

/-! ## C4/C6 groundwork: manifest file names -/

theorem name_to_filename_fixed (u : Char → Bool) (l : Str)
    (h : ∀ c ∈ l, u c = false ∧ c ≠ '_') : name_to_filename u l = l := by
  induction l with
  | nil => rfl
  | cons c t ih =>
    obtain ⟨hu, hund⟩ := h c (List.mem_cons_self c t)
    simp [name_to_filename, hu, hund, ih (fun x hx => h x (List.mem_cons_of_mem c hx))]

theorem lastDotSplit_append (a b : Str) (hb : '.' ∉ b) :
    lastDotSplit (a ++ '.' :: b) = some (a, b) := by
  unfold lastDotSplit
  rw [if_pos (by simp : '.' ∈ a ++ '.' :: b)]
  have hrev : (a ++ '.' :: b).reverse = b.reverse ++ '.' :: a.reverse := by
    rw [List.reverse_append, List.reverse_cons]
    simp
  rw [hrev]
  have hball : ∀ c ∈ b.reverse, notDot c = true := by
    intro c hcm
    rw [List.mem_reverse] at hcm
    have hne : c ≠ '.' := fun he => hb (he ▸ hcm)
    simp [notDot, hne]
  rw [takeWhile_all_append notDot b.reverse ('.' :: a.reverse) hball,
    dropWhile_all_append notDot b.reverse ('.' :: a.reverse) hball]
  rw [List.takeWhile_cons, List.dropWhile_cons]
  rw [(by decide : notDot '.' = false)]
  simp

theorem extOf_append (a b : Str) (hb : '.' ∉ b) (ha : a ≠ []) :
    extOf (a ++ '.' :: b) = some b := by
  unfold extOf
  rw [lastDotSplit_append a b hb]
  simp [ha]

theorem stemOf_append (a b : Str) (hb : '.' ∉ b) (ha : a ≠ []) :
    stemOf (a ++ '.' :: b) = a := by
  unfold stemOf
  rw [lastDotSplit_append a b hb]
  simp [ha]

theorem manifest_file_name_eq (u : Char → Bool)
    (hu : ∀ c ∈ str "set.csv", u c = false) (s : Str) :
    manifest_file_name u s =
      (str "set." ++ name_to_filename u s) ++ '.' :: str "csv" := by
  have hsub1 : ∀ c ∈ str "set.", c ∈ str "set.csv" := by decide
  have hsub2 : ∀ c ∈ str ".csv", c ∈ str "set.csv" := by decide
  have hund1 : ∀ c ∈ str "set.", c ≠ '_' := by decide
  have hund2 : ∀ c ∈ str ".csv", c ≠ '_' := by decide
  unfold manifest_file_name
  rw [name_to_filename_append, name_to_filename_append]
  rw [name_to_filename_fixed u (str "set.") (fun c hc => ⟨hu c (hsub1 c hc), hund1 c hc⟩)]
  rw [name_to_filename_fixed u (str ".csv") (fun c hc => ⟨hu c (hsub2 c hc), hund2 c hc⟩)]
  rw [(by decide : str ".csv" = '.' :: str "csv")]

theorem manifest_head_ne_nil (u : Char → Bool) (s : Str) :
    str "set." ++ name_to_filename u s ≠ [] := by
  intro hc
  rcases List.append_eq_nil.mp hc with ⟨h1, _⟩
  exact absurd h1 (by decide)

theorem extOf_manifest (u : Char → Bool)
    (hu : ∀ c ∈ str "set.csv", u c = false) (s : Str) :
    extOf (manifest_file_name u s) = some (str "csv") := by
  rw [manifest_file_name_eq u hu s]
  exact extOf_append _ _ (by decide) (manifest_head_ne_nil u s)

theorem stemOf_manifest (u : Char → Bool)
    (hu : ∀ c ∈ str "set.csv", u c = false) (s : Str) :
    stripSetDot (stemOf (manifest_file_name u s)) = some (name_to_filename u s) := by
  rw [manifest_file_name_eq u hu s]
  rw [stemOf_append _ _ (by decide) (manifest_head_ne_nil u s)]
  rfl

/-! ## C4 groundwork: grouping and sorting -/

theorem lookupAL_append {α : Type} (l1 l2 : List (Str × α)) (k : Str) :
    lookupAL (l1 ++ l2) k =
      match lookupAL l1 k with
      | some v => some v
      | none => lookupAL l2 k := by
  induction l1 with
  | nil => simp [lookupAL]
  | cons p rest ih =>
    obtain ⟨k0, v0⟩ := p
    by_cases h0 : k0 = k <;> simp [lookupAL, h0, ih]

theorem lookupAL_of_mem_nodup {α : Type} {l : List (Str × α)}
    (hnd : (l.map Prod.fst).Nodup) {k : Str} {v : α} (h : (k, v) ∈ l) :
    lookupAL l k = some v := by
  induction l with
  | nil => cases h
  | cons p rest ih =>
    simp only [List.map_cons, List.nodup_cons] at hnd
    rcases List.mem_cons.mp h with h1 | h1
    · rw [← h1, lookupAL, if_pos rfl]
    · have hk : k ∈ rest.map Prod.fst := List.mem_map.mpr ⟨(k, v), h1, rfl⟩
      have hne : p.1 ≠ k := fun he => hnd.1 (he ▸ hk)
      obtain ⟨k0, v0⟩ := p
      rw [lookupAL, if_neg hne]
      exact ih hnd.2 h1

theorem insertSorted_perm (x : Str) (l : List Str) : List.Perm (insertSorted x l) (x :: l) := by
  induction l with
  | nil => exact List.Perm.refl _
  | cons y ys ih =>
    unfold insertSorted
    by_cases h : strLeb x y
    · rw [if_pos h]
    · rw [if_neg h]
      exact (ih.cons y).trans (List.Perm.swap x y ys)

theorem sortStrs_perm (l : List Str) : List.Perm (sortStrs l) l := by
  induction l with
  | nil => exact List.Perm.refl _
  | cons x xs ih => exact (insertSorted_perm x (sortStrs xs)).trans (ih.cons x)

theorem mem_updateAL {α : Type} {l : List (Str × α)} {k : Str} {d : α} {f : α → α}
    {q : Str × α} (h : q ∈ updateAL k d f l) :
    q = (k, f ((lookupAL l k).getD d)) ∨ q ∈ l := by
  induction l with
  | nil =>
    simp only [updateAL, List.mem_singleton] at h
    exact Or.inl (by simpa [lookupAL] using h)
  | cons p rest ih =>
    obtain ⟨k0, v0⟩ := p
    by_cases h0 : k0 = k
    · rw [updateAL, if_pos h0] at h
      rcases List.mem_cons.mp h with h1 | h1
      · subst h0
        rw [lookupAL, if_pos rfl]
        exact Or.inl (by simpa using h1)
      · exact Or.inr (List.mem_cons_of_mem _ h1)
    · rw [updateAL, if_neg h0] at h
      rcases List.mem_cons.mp h with h1 | h1
      · exact Or.inr (h1 ▸ List.mem_cons_self _ _)
      · rcases ih h1 with h2 | h2
        · rw [lookupAL, if_neg h0]
          exact Or.inl h2
        · exact Or.inr (List.mem_cons_of_mem _ h2)

theorem updateAL_join_perm (l : List (Str × List Str)) (k : Str) (n : Str) :
    List.Perm ((updateAL k [] (fun v => v ++ [n]) l).map Prod.snd).flatten
      ((l.map Prod.snd).flatten ++ [n]) := by
  induction l with
  | nil => simp [updateAL]
  | cons p rest ih =>
    obtain ⟨k0, v0⟩ := p
    by_cases h0 : k0 = k
    · rw [updateAL, if_pos h0]
      simp only [List.map_cons, List.join_cons]
      rw [List.append_assoc, List.append_assoc]
      exact List.Perm.append_left v0 (List.perm_append_comm)
    · rw [updateAL, if_neg h0]
      simp only [List.map_cons, List.join_cons]
      rw [List.append_assoc]
      exact (List.Perm.append_left v0 ih).trans
        (by rw [← List.append_assoc])

theorem groupBySet_go_inv (fg : Fontgarden) (names : List Str) :
    ∀ acc : List (Str × List Str),
    (∀ n ∈ names, (lookupAL fg.glyphs n).isSome = true) →
    (∀ p ∈ acc, ∀ n ∈ p.2, ∃ g, lookupAL fg.glyphs n = some g ∧ set_of_glyph g = p.1) →
    (∀ p ∈ names.foldl
        (fun acc n =>
          match lookupAL fg.glyphs n with
          | some g => updateAL (set_of_glyph g) [] (fun v => v ++ [n]) acc
          | none => acc)
        acc,
      ∀ n ∈ p.2, ∃ g, lookupAL fg.glyphs n = some g ∧ set_of_glyph g = p.1) ∧
    List.Perm ((names.foldl
        (fun acc n =>
          match lookupAL fg.glyphs n with
          | some g => updateAL (set_of_glyph g) [] (fun v => v ++ [n]) acc
          | none => acc)
        acc).map Prod.snd).flatten ((acc.map Prod.snd).flatten ++ names) := by
  induction names with
  | nil =>
    intro acc _ hacc
    exact ⟨hacc, by simp⟩
  | cons n ns ih =>
    intro acc hsome hacc
    have hn := hsome n (List.mem_cons_self n ns)
    cases hln : lookupAL fg.glyphs n with
    | none => rw [hln] at hn; cases hn
    | some g =>
      simp only [List.foldl_cons, hln]
      have hacc' : ∀ p ∈ updateAL (set_of_glyph g) [] (fun v => v ++ [n]) acc,
          ∀ m ∈ p.2, ∃ g', lookupAL fg.glyphs m = some g' ∧ set_of_glyph g' = p.1 := by
        intro p hp m hm
        rcases mem_updateAL hp with h1 | h1
        · subst h1
          simp only at hm
          rcases List.mem_append.mp hm with h2 | h2
          · cases hlold : lookupAL acc (set_of_glyph g) with
            | none => rw [hlold] at h2; cases h2
            | some old => exact hacc _ (lookupAL_mem hlold) m (by rwa [hlold] at h2)
          · rw [List.mem_singleton.mp h2] at hm ⊢
            exact ⟨g, hln, rfl⟩
        · exact hacc p h1 m hm
      obtain ⟨hA, hB⟩ := ih (updateAL (set_of_glyph g) [] (fun v => v ++ [n]) acc)
        (fun m hm => hsome m (List.mem_cons_of_mem n hm)) hacc'
      refine ⟨hA, ?_⟩
      have hstep := updateAL_join_perm acc (set_of_glyph g) n
      refine hB.trans ?_
      refine (hstep.append_right ns).trans ?_
      rw [List.append_assoc, List.singleton_append]

/-! ## C4 groundwork: loading saved manifests back -/

theorem parse_save_record (path s n : Str) (g : Glyph)
    (hcp : g.codepoints.Nodup) (hl : g.layers = [])
    (hset : g.set ≠ some COMMON_SET_NAME) (hs : set_of_glyph g = s) :
    parse_record path s (save_record n g) = .ok (n, g) := by
  obtain ⟨cp, ly, oc, ps, st⟩ := g
  simp only at hl
  subst hl
  unfold parse_record save_record
  simp only []
  rw [codepoints_roundtrip cp hcp]
  simp only []
  rw [category_roundtrip oc]
  simp only []
  cases st with
  | none =>
    have hcom : s = COMMON_SET_NAME := by
      rw [← hs]
      simp [set_of_glyph]
    rw [if_pos hcom]
  | some v =>
    have hv : s = v := by
      rw [← hs]
      simp [set_of_glyph]
    have hvne : v ≠ COMMON_SET_NAME := by
      intro he
      exact hset (by simp only at *; rw [he])
    rw [if_neg (by rw [hv]; exact hvne)]
    rw [hv]

theorem lookup_loaded_of_not_mem (fg : Fontgarden) (ns : List Str) (m : Str)
    (hm : m ∉ ns) :
    lookupAL (ns.filterMap fun n => (lookupAL fg.glyphs n).map fun g => (n, g)) m
      = none := by
  induction ns with
  | nil => rfl
  | cons n ns ih =>
    have hmn : m ≠ n := fun he => hm (he ▸ List.mem_cons_self n ns)
    have hm' : m ∉ ns := fun hc => hm (List.mem_cons_of_mem n hc)
    rw [List.filterMap_cons]
    cases hln : lookupAL fg.glyphs n with
    | none => exact ih hm'
    | some g =>
      simp only [Option.map_some']
      rw [lookupAL, if_neg (fun he => hmn he.symm)]
      exact ih hm'

theorem loaded_keys_eq (fg : Fontgarden) (ns : List Str)
    (hsome : ∀ n ∈ ns, (lookupAL fg.glyphs n).isSome = true) :
    (ns.filterMap fun n => (lookupAL fg.glyphs n).map fun g => (n, g)).map Prod.fst
      = ns := by
  induction ns with
  | nil => rfl
  | cons n ns ih =>
    have hn := hsome n (List.mem_cons_self n ns)
    cases hln : lookupAL fg.glyphs n with
    | none => rw [hln] at hn; cases hn
    | some g =>
      rw [List.filterMap_cons, hln]
      simp only [Option.map_some', List.map_cons]
      rw [ih (fun m hm => hsome m (List.mem_cons_of_mem n hm))]

theorem load_manifest_rows_save (fg : Fontgarden) (path s : Str) (ns : List Str)
    (hprops : ∀ p ∈ fg.glyphs, p.2.layers = [] ∧ p.2.codepoints.Nodup ∧
      p.2.set ≠ some COMMON_SET_NAME) :
    ∀ acc : List (Str × Glyph),
    (∀ n ∈ ns, ∃ g, lookupAL fg.glyphs n = some g ∧ set_of_glyph g = s) →
    ns.Nodup →
    (∀ n ∈ ns, (lookupAL acc n).isSome = false) →
    load_manifest_rows path s acc
        (ns.filterMap fun n => (lookupAL fg.glyphs n).map fun g => save_record n g)
      = .ok (acc ++ ns.filterMap fun n => (lookupAL fg.glyphs n).map fun g => (n, g)) := by
  induction ns with
  | nil =>
    intro acc _ _ _
    simp [load_manifest_rows]
  | cons n ns ih =>
    intro acc hset hnd hdisj
    obtain ⟨g, hln, hgs⟩ := hset n (List.mem_cons_self n ns)
    simp only [List.map_cons, List.nodup_cons] at hnd
    rw [List.filterMap_cons, List.filterMap_cons, hln]
    simp only [Option.map_some']
    unfold load_manifest_rows
    have hgmem : (n, g) ∈ fg.glyphs := lookupAL_mem hln
    obtain ⟨hl, hcp, hsetne⟩ := hprops (n, g) hgmem
    rw [parse_save_record path s n g hcp hl hsetne hgs]
    simp only []
    have hck : containsKeyAL acc n = false := by
      unfold containsKeyAL
      exact hdisj n (List.mem_cons_self n ns)
    rw [hck]
    simp only [Bool.false_eq_true, if_false]
    rw [ih (acc ++ [(n, g)])
      (fun m hm => hset m (List.mem_cons_of_mem n hm)) hnd.2 ?later]
    · rw [List.append_assoc, List.singleton_append]
    case later =>
      intro m hm
      rw [lookupAL_append]
      have h1 := hdisj m (List.mem_cons_of_mem n hm)
      cases hacc : lookupAL acc m with
      | some v => rw [hacc] at h1; cases h1
      | none =>
        simp only []
        rw [lookupAL, if_neg (show ¬ n = m from fun he => hnd.1 (he ▸ hm))]
        rfl

theorem load_metadata_save_files (u : Char → Bool)
    (hu : ∀ c ∈ str "set.csv", u c = false) (fg : Fontgarden)
    (hprops : ∀ p ∈ fg.glyphs, p.2.layers = [] ∧ p.2.codepoints.Nodup ∧
      p.2.set ≠ some COMMON_SET_NAME)
    (groups : List (Str × List Str)) :
    ∀ acc : List (Str × Glyph),
    (∀ p ∈ groups, ∀ n ∈ p.2, ∃ g, lookupAL fg.glyphs n = some g ∧ set_of_glyph g = p.1) →
    ((groups.map Prod.snd).flatten).Nodup →
    (∀ p ∈ groups, ∀ n ∈ p.2, (lookupAL acc n).isSome = false) →
    load_metadata u acc (groups.map fun p =>
        (manifest_file_name u p.1,
         p.2.filterMap fun n => (lookupAL fg.glyphs n).map fun g => save_record n g))
      = .ok (acc ++ (groups.map fun p =>
          p.2.filterMap fun n => (lookupAL fg.glyphs n).map fun g => (n, g)).flatten) := by
  induction groups with
  | nil =>
    intro acc _ _ _
    simp [load_metadata]
  | cons grp groups ih =>
    intro acc hinv hnd hdisj
    obtain ⟨s, ns⟩ := grp
    rw [List.map_cons]
    unfold load_metadata
    rw [extOf_manifest u hu s]
    rw [if_neg (by simp)]
    rw [stemOf_manifest u hu s]
    simp only []
    rw [filename_roundtrip_aux u s]
    have hflat : (List.map Prod.snd ((s, ns) :: groups)).flatten =
        ns ++ (groups.map Prod.snd).flatten := by
      simp
    rw [hflat] at hnd
    rcases List.nodup_append.mp hnd with ⟨hnsnd, hrestnd, hdisjoint⟩
    rw [load_manifest_rows_save fg _ s ns hprops acc
      (hinv (s, ns) (List.mem_cons_self _ _)) hnsnd
      (fun n hn => hdisj (s, ns) (List.mem_cons_self _ _) n hn)]
    simp only []
    rw [ih (acc ++ ns.filterMap fun n => (lookupAL fg.glyphs n).map fun g => (n, g))
      (fun p hp => hinv p (List.mem_cons_of_mem _ hp)) hrestnd ?disj]
    · rw [List.map_cons, List.flatten_cons, List.append_assoc]
    case disj =>
      intro p hp n hn
      have hnacc := hdisj p (List.mem_cons_of_mem _ hp) n hn
      rw [lookupAL_append]
      cases hacc : lookupAL acc n with
      | some v => rw [hacc] at hnacc; cases hnacc
      | none =>
        simp only []
        have hnin : n ∉ ns := by
          intro hcontra
          exact hdisjoint hcontra
            (List.mem_flatten.mpr ⟨p.2, List.mem_map.mpr ⟨p, hp, rfl⟩, hn⟩)
        rw [lookup_loaded_of_not_mem fg ns n hnin]
        rfl

/-! ## C4: save-then-load round-trip for metadata-only projects -/

/-- Counterexample for C4: a metadata-only glyph explicitly labelled with
set "Common" loads back with no set label — `Some("Common")` and `None`
are identified by the storage engine, so the reloaded project is not equal
to the original. -/
theorem C4_counterexample :
    Fontgarden.load Char.isUpper (Fontgarden.save Char.isUpper
      ⟨[(str "a", ⟨[], [], .unassigned, none, some (str "Common")⟩)]⟩) =
      .ok ⟨[(str "a", ⟨[], [], .unassigned, none, none⟩)]⟩ ∧
    ¬ fgMapEq ⟨[(str "a", ⟨[], [], .unassigned, none, none⟩)]⟩
      ⟨[(str "a", ⟨[], [], .unassigned, none, some (str "Common")⟩)]⟩ := by
  refine ⟨rfl, ?_⟩
  intro h
  have h2 := h (str "a")
  simp [lookupAL] at h2

/-- C4 amended: for an empty project, or one whose glyphs are all
metadata-only (empty layer maps), saving and loading returns an equal
project — provided no glyph carries the explicit set label "Common", which
save+load canonicalizes to `None` (the two are semantically the same set).
Codepoint sequences are duplicate-free as norad's `Codepoints` maintains
them.  The uppercase predicate agrees with Unicode on the (lowercase)
letters of "set.csv". -/
theorem C4_amended_metadata_roundtrip (u : Char → Bool)
    (hu : ∀ c ∈ str "set.csv", u c = false) (fg : Fontgarden)
    (hnd : (fg.glyphs.map Prod.fst).Nodup)
    (hprops : ∀ p ∈ fg.glyphs, p.2.layers = [] ∧ p.2.codepoints.Nodup ∧
      p.2.set ≠ some COMMON_SET_NAME) :
    ∃ m, Fontgarden.load u (Fontgarden.save u fg) = .ok m ∧ fgMapEq m fg := by
  have hsort := sortStrs_perm (fg.glyphs.map Prod.fst)
  have hsome : ∀ n ∈ sortStrs (fg.glyphs.map Prod.fst),
      (lookupAL fg.glyphs n).isSome = true := by
    intro n hn
    exact (lookupAL_isSome_iff_mem_keys fg.glyphs n).mpr (hsort.mem_iff.mp hn)
  obtain ⟨hginv, hperm⟩ := groupBySet_go_inv fg (sortStrs (fg.glyphs.map Prod.fst)) []
    hsome (by intro p hp; cases hp)
  have hginv' : ∀ p ∈ groupBySet fg (sortStrs (fg.glyphs.map Prod.fst)),
      ∀ n ∈ p.2, ∃ g, lookupAL fg.glyphs n = some g ∧ set_of_glyph g = p.1 := by
    simpa [groupBySet] using hginv
  have hperm2 : List.Perm
      ((List.map Prod.snd (groupBySet fg (sortStrs (fg.glyphs.map Prod.fst)))).flatten)
      (fg.glyphs.map Prod.fst) := by
    have h0 : List.Perm ((([] : List (Str × List Str)).map Prod.snd).flatten
        ++ sortStrs (fg.glyphs.map Prod.fst)) (fg.glyphs.map Prod.fst) := by
      simpa using hsort
    have := hperm.trans h0
    simpa [groupBySet] using this
  have hflatnd : ((List.map Prod.snd
      (groupBySet fg (sortStrs (fg.glyphs.map Prod.fst)))).flatten).Nodup :=
    hperm2.nodup_iff.mpr hnd
  have hload := load_metadata_save_files u hu fg hprops
    (groupBySet fg (sortStrs (fg.glyphs.map Prod.fst))) []
    hginv' hflatnd
    (by intro p _ n _; rfl)
  have hpay : save_payloads u fg = [] := by
    unfold save_payloads
    rw [List.filter_eq_nil_iff.mpr]
    · rfl
    · intro p hp
      simp [Glyph.is_empty, (hprops p hp).1]
  refine ⟨⟨((groupBySet fg (sortStrs (fg.glyphs.map Prod.fst))).map
    (fun p => p.2.filterMap fun n =>
      (lookupAL fg.glyphs n).map fun g => (n, g))).flatten⟩, ?_, ?_⟩
  · unfold Fontgarden.load Fontgarden.save
    simp only [hpay]
    rw [show load_metadata u [] (save_metadata u fg) =
        .ok ((groupBySet fg (sortStrs (fg.glyphs.map Prod.fst))).map
          (fun p => p.2.filterMap fun n =>
            (lookupAL fg.glyphs n).map fun g => (n, g))).flatten from by
      simpa [save_metadata] using hload]
    simp only []
    rw [show (fun (p : Str × Glyph) =>
        match lookupAL ([] : List (Str × List (Str × Layer)))
            (name_to_filename u p.1) with
        | none => p
        | some files => (p.1, load_glyph_layers u files p.2)) = fun p => p from rfl]
    rw [List.map_id']
  · intro k
    have hkeysM : (((groupBySet fg (sortStrs (fg.glyphs.map Prod.fst))).map
        (fun p => p.2.filterMap fun n =>
          (lookupAL fg.glyphs n).map fun g => (n, g))).flatten).map Prod.fst =
        (List.map Prod.snd (groupBySet fg (sortStrs (fg.glyphs.map Prod.fst)))).flatten := by
      rw [List.map_flatten, List.map_map]
      congr 1
      apply List.map_congr_left
      intro p hp
      simp only [Function.comp]
      apply loaded_keys_eq
      intro n hn
      obtain ⟨g, hg, _⟩ := hginv' p hp n hn
      rw [hg]
      rfl
    have hMnd : ((((groupBySet fg (sortStrs (fg.glyphs.map Prod.fst))).map
        (fun p => p.2.filterMap fun n =>
          (lookupAL fg.glyphs n).map fun g => (n, g))).flatten).map Prod.fst).Nodup := by
      rw [hkeysM]
      exact hflatnd
    cases hk : lookupAL fg.glyphs k with
    | some g =>
      have hkmem : k ∈ (List.map Prod.snd
          (groupBySet fg (sortStrs (fg.glyphs.map Prod.fst)))).flatten :=
        hperm2.mem_iff.mpr (List.mem_map.mpr ⟨(k, g), lookupAL_mem hk, rfl⟩)
      rcases List.mem_flatten.mp hkmem with ⟨l, hl, hkl⟩
      rcases List.mem_map.mp hl with ⟨p, hp, hpe⟩
      have hkg : (k, g) ∈ ((groupBySet fg (sortStrs (fg.glyphs.map Prod.fst))).map
          (fun p => p.2.filterMap fun n =>
            (lookupAL fg.glyphs n).map fun g => (n, g))).flatten := by
        apply List.mem_flatten.mpr
        refine ⟨p.2.filterMap fun n => (lookupAL fg.glyphs n).map fun g => (n, g),
          List.mem_map.mpr ⟨p, hp, rfl⟩, ?_⟩
        apply List.mem_filterMap.mpr
        refine ⟨k, hpe ▸ hkl, ?_⟩
        show Option.map (fun g => (k, g)) (lookupAL fg.glyphs k) = some (k, g)
        rw [hk]
        rfl
      rw [lookupAL_of_mem_nodup hMnd hkg]
    | none =>
      cases hM : lookupAL (((groupBySet fg (sortStrs (fg.glyphs.map Prod.fst))).map
          (fun p => p.2.filterMap fun n =>
            (lookupAL fg.glyphs n).map fun g => (n, g))).flatten) k with
      | none => rfl
      | some g' =>
        exfalso
        have hmem := lookupAL_mem hM
        rcases List.mem_flatten.mp hmem with ⟨l, hl, hkl⟩
        rcases List.mem_map.mp hl with ⟨p, _, hpe⟩
        rw [← hpe] at hkl
        rcases List.mem_filterMap.mp hkl with ⟨n, _, hne⟩
        cases hlk : lookupAL fg.glyphs n with
        | none => rw [hlk] at hne; cases hne
        | some g2 =>
          rw [hlk] at hne
          simp only [Option.map_some'] at hne
          have : n = k := (Prod.mk.injEq _ _ _ _).mp (Option.some.inj hne) |>.1
          rw [this] at hlk
          rw [hlk] at hk
          cases hk

/-- Witness for the amended C4 at the `roundtrip_no_layers`-style fixture. -/
theorem C4_amended_metadata_roundtrip_witness :
    (∀ c ∈ str "set.csv", Char.isUpper c = false) ∧
    ((w4fg.glyphs.map Prod.fst).Nodup ∧
      ∀ p ∈ w4fg.glyphs, p.2.layers = [] ∧ p.2.codepoints.Nodup ∧
        p.2.set ≠ some COMMON_SET_NAME) ∧
    ∃ m, Fontgarden.load Char.isUpper (Fontgarden.save Char.isUpper w4fg) = .ok m ∧
      fgMapEq m w4fg :=
  ⟨by decide, ⟨by decide, by decide⟩,
    C4_amended_metadata_roundtrip Char.isUpper (by decide) w4fg (by decide) (by decide)⟩

/-! ## C6: duplicate glyph names across manifests -/

theorem containsKeyAL_append_single {α : Type} (acc : List (Str × α)) (n : Str) (v : α)
    (m : Str) :
    containsKeyAL (acc ++ [(n, v)]) m = (containsKeyAL acc m || decide (n = m)) := by
  unfold containsKeyAL
  rw [lookupAL_append]
  cases h : lookupAL acc m with
  | some w => simp
  | none =>
    simp only [Option.isSome_none, Bool.false_or]
    by_cases hnm : n = m
    · simp [lookupAL, hnm]
    · simp [lookupAL, hnm]

theorem parse_record_ok (path s : Str) (r : SetRecord)
    (h1 : (codepoints_deserialize r.codepoints).isSome = true)
    (h2 : (category_from_str r.opentype_category).isSome = true) :
    ∃ g, parse_record path s r = .ok (r.name, g) := by
  unfold parse_record
  cases hc : codepoints_deserialize r.codepoints with
  | none => simp [hc] at h1
  | some cps =>
    cases hcat : category_from_str r.opentype_category with
    | none => simp [hcat] at h2
    | some cat => exact ⟨_, rfl⟩

theorem load_manifest_rows_ok_keys (path s : Str) (rows : List SetRecord) :
    ∀ acc : List (Str × Glyph),
    (∀ r ∈ rows, (codepoints_deserialize r.codepoints).isSome = true ∧
      (category_from_str r.opentype_category).isSome = true) →
    (rows.map SetRecord.name).Nodup →
    (∀ r ∈ rows, containsKeyAL acc r.name = false) →
    ∃ acc', load_manifest_rows path s acc rows = .ok acc' ∧
      ∀ m, containsKeyAL acc' m =
        (containsKeyAL acc m || decide (m ∈ rows.map SetRecord.name)) := by
  induction rows with
  | nil =>
    intro acc _ _ _
    exact ⟨acc, rfl, fun m => by simp⟩
  | cons r rows ih =>
    intro acc hparse hnd hfresh
    obtain ⟨g, hpr⟩ := parse_record_ok path s r
      (hparse r (List.mem_cons_self _ _)).1 (hparse r (List.mem_cons_self _ _)).2
    rw [List.map_cons, List.nodup_cons] at hnd
    obtain ⟨hrnotin, hndrest⟩ := hnd
    obtain ⟨acc', hok, hkeys⟩ := ih (acc ++ [(r.name, g)])
      (fun r' hr' => hparse r' (List.mem_cons_of_mem _ hr'))
      hndrest
      (fun r' hr' => by
        rw [containsKeyAL_append_single]
        rw [hfresh r' (List.mem_cons_of_mem _ hr')]
        simp only [Bool.false_or, decide_eq_false_iff_not]
        intro hcontra
        exact hrnotin (hcontra ▸ List.mem_map.mpr ⟨r', hr', rfl⟩))
    refine ⟨acc', ?_, ?_⟩
    · unfold load_manifest_rows
      rw [hpr]
      simp only []
      rw [hfresh r (List.mem_cons_self _ _)]
      rw [if_neg (by simp)]
      exact hok
    · intro m
      rw [hkeys m, containsKeyAL_append_single, List.map_cons]
      have hmemeq : decide (m ∈ r.name :: List.map SetRecord.name rows) =
          (decide (r.name = m) || decide (m ∈ List.map SetRecord.name rows)) := by
        by_cases hm : r.name = m
        · subst hm
          simp
        · have hne : m ≠ r.name := fun h => hm h.symm
          by_cases h2 : m ∈ List.map SetRecord.name rows <;>
            simp [List.mem_cons, hne, h2, hm]
      rw [hmemeq, Bool.or_assoc]

theorem load_manifest_rows_dup (path s : Str) (rows : List SetRecord) :
    ∀ acc : List (Str × Glyph),
    (∀ r ∈ rows, (codepoints_deserialize r.codepoints).isSome = true ∧
      (category_from_str r.opentype_category).isSome = true) →
    (rows.map SetRecord.name).Nodup →
    (∃ r ∈ rows, containsKeyAL acc r.name = true) →
    ∃ gname, gname ∈ rows.map SetRecord.name ∧ containsKeyAL acc gname = true ∧
      load_manifest_rows path s acc rows = .error (.duplicateGlyphs s gname) := by
  induction rows with
  | nil =>
    intro acc _ _ hex
    obtain ⟨r, hr, _⟩ := hex
    cases hr
  | cons r rows ih =>
    intro acc hparse hnd hex
    obtain ⟨g, hpr⟩ := parse_record_ok path s r
      (hparse r (List.mem_cons_self _ _)).1 (hparse r (List.mem_cons_self _ _)).2
    rw [List.map_cons, List.nodup_cons] at hnd
    obtain ⟨hrnotin, hndrest⟩ := hnd
    by_cases hck : containsKeyAL acc r.name = true
    · refine ⟨r.name, List.mem_cons_self _ _, hck, ?_⟩
      unfold load_manifest_rows
      rw [hpr]
      simp only []
      rw [hck, if_pos rfl]
    · have hex' : ∃ r' ∈ rows, containsKeyAL (acc ++ [(r.name, g)]) r'.name = true := by
        obtain ⟨r', hr', hck'⟩ := hex
        rcases List.mem_cons.mp hr' with h | h
        · exact absurd (h ▸ hck') hck
        · refine ⟨r', h, ?_⟩
          rw [containsKeyAL_append_single, hck']
          rfl
      obtain ⟨gname, hmem, hck', herr⟩ := ih (acc ++ [(r.name, g)])
        (fun r' hr' => hparse r' (List.mem_cons_of_mem _ hr')) hndrest hex'
      have hgname_ne : r.name ≠ gname := fun hcontra => hrnotin (hcontra ▸ hmem)
      have hckacc : containsKeyAL acc gname = true := by
        rw [containsKeyAL_append_single] at hck'
        cases haa : containsKeyAL acc gname with
        | true => rfl
        | false =>
          rw [haa] at hck'
          simp only [Bool.false_or, decide_eq_true_eq] at hck'
          exact absurd hck' hgname_ne
      refine ⟨gname, List.mem_cons_of_mem _ hmem, hckacc, ?_⟩
      unfold load_manifest_rows
      rw [hpr]
      simp only []
      rw [if_neg hck]
      exact herr

theorem load_metadata_cons_manifest (u : Char → Bool)
    (hu : ∀ c ∈ str "set.csv", u c = false) (s : Str) (rows : List SetRecord)
    (acc : List (Str × Glyph)) (files : List (Str × List SetRecord)) :
    load_metadata u acc ((manifest_file_name u s, rows) :: files) =
      match load_manifest_rows (manifest_file_name u s) s acc rows with
      | .error e => .error e
      | .ok acc' => load_metadata u acc' files := by
  unfold load_metadata
  rw [extOf_manifest u hu s]
  rw [if_neg (by simp)]
  rw [stemOf_manifest u hu s]
  simp only []
  rw [filename_roundtrip_aux u s]
  cases load_manifest_rows (manifest_file_name u s) s acc rows with
  | error e => rfl
  | ok acc2 =>
    cases files with
    | nil => rfl
    | cons f fs => rfl

/-- Counterexample for C6: two manifests, for sets "A" and "B", both carry
a row named "x".  Loading fails with a duplicate-glyph error, but the error
names only the second set and the glyph: replacing the first set's name by
"Z" leaves the error value unchanged, so the error cannot be naming both
sets involved. -/
theorem C6_counterexample :
    Fontgarden.load Char.isUpper
      ⟨[(manifest_file_name Char.isUpper (str "A"), [w6row]),
        (manifest_file_name Char.isUpper (str "B"), [w6row])], []⟩ =
      .error (.duplicateGlyphs (str "B") (str "x")) ∧
    Fontgarden.load Char.isUpper
      ⟨[(manifest_file_name Char.isUpper (str "Z"), [w6row]),
        (manifest_file_name Char.isUpper (str "B"), [w6row])], []⟩ =
      .error (.duplicateGlyphs (str "B") (str "x")) ∧
    str "A" ≠ str "Z" :=
  ⟨rfl, rfl, by decide⟩

/-- C6 amended: a glyph name shared between two set manifests is a fatal
error and `load` returns no project, but the `DuplicateGlyphs` error names
only the set whose manifest was being read when the clash was found
(together with the glyph name), not both sets involved. -/
theorem C6_amended_duplicate_error (u : Char → Bool)
    (hu : ∀ c ∈ str "set.csv", u c = false) (s1 s2 : Str)
    (rows1 rows2 : List SetRecord)
    (hparse : ∀ r ∈ rows1 ++ rows2,
      (codepoints_deserialize r.codepoints).isSome = true ∧
      (category_from_str r.opentype_category).isSome = true)
    (hnd1 : (rows1.map SetRecord.name).Nodup)
    (hnd2 : (rows2.map SetRecord.name).Nodup)
    (hshared : ∃ r ∈ rows2, r.name ∈ rows1.map SetRecord.name)
    (gdirs : List (Str × List (Str × Layer))) :
    ∃ gname, gname ∈ rows1.map SetRecord.name ∧ gname ∈ rows2.map SetRecord.name ∧
      Fontgarden.load u ⟨[(manifest_file_name u s1, rows1),
        (manifest_file_name u s2, rows2)], gdirs⟩ =
        .error (.duplicateGlyphs s2 gname) := by
  obtain ⟨acc1, hok1, hkeys1⟩ := load_manifest_rows_ok_keys
    (manifest_file_name u s1) s1 rows1 []
    (fun r hr => hparse r (List.mem_append_left _ hr)) hnd1
    (fun r _ => rfl)
  have hshared' : ∃ r ∈ rows2, containsKeyAL acc1 r.name = true := by
    obtain ⟨r, hr, hmem⟩ := hshared
    refine ⟨r, hr, ?_⟩
    rw [hkeys1 r.name]
    simp [containsKeyAL, lookupAL, hmem]
  obtain ⟨gname, hm2, hck, herr⟩ := load_manifest_rows_dup
    (manifest_file_name u s2) s2 rows2 acc1
    (fun r hr => hparse r (List.mem_append_right _ hr)) hnd2 hshared'
  have hm1 : gname ∈ rows1.map SetRecord.name := by
    have hk : (containsKeyAL ([] : List (Str × Glyph)) gname ||
        decide (gname ∈ rows1.map SetRecord.name)) = true :=
      (hkeys1 gname).symm.trans hck
    simp only [containsKeyAL, lookupAL, Option.isSome_none, Bool.false_or,
      decide_eq_true_eq] at hk
    exact hk
  refine ⟨gname, hm1, hm2, ?_⟩
  unfold Fontgarden.load
  simp only []
  rw [load_metadata_cons_manifest u hu s1 rows1 [] _, hok1]
  simp only []
  rw [load_metadata_cons_manifest u hu s2 rows2 acc1 [], herr]

/-- Witness for the amended C6 at the two-manifest fixture with sets "A"
and "B" sharing glyph "x". -/
theorem C6_amended_duplicate_error_witness :
    ((∀ c ∈ str "set.csv", Char.isUpper c = false) ∧
      (∀ r ∈ [w6row] ++ [w6row],
        (codepoints_deserialize r.codepoints).isSome = true ∧
        (category_from_str r.opentype_category).isSome = true) ∧
      (([w6row].map SetRecord.name).Nodup) ∧
      (∃ r ∈ [w6row], r.name ∈ [w6row].map SetRecord.name)) ∧
    ∃ gname, gname ∈ [w6row].map SetRecord.name ∧
      gname ∈ [w6row].map SetRecord.name ∧
      Fontgarden.load Char.isUpper
        ⟨[(manifest_file_name Char.isUpper (str "A"), [w6row]),
          (manifest_file_name Char.isUpper (str "B"), [w6row])], []⟩ =
        .error (.duplicateGlyphs (str "B") gname) :=
  ⟨⟨by decide, by decide, by decide, by decide⟩,
    C6_amended_duplicate_error Char.isUpper (by decide) (str "A") (str "B")
      [w6row] [w6row] (by decide) (by decide) (by decide) (by decide) []⟩

/-! ## C8: selective-import reference set (spec-modelled) -/

/-- C8: with `target_sets = {S}`, a stored glyph A classified in S whose
layer references component B, with B stored, yields both A and B in the
reference set (the base rule and one closure step). -/
theorem C8_reference_set_closure (fg : Fontgarden) (S A B : Str) (gA gB : Glyph)
    (hA : lookupAL fg.glyphs A = some gA) (hAset : glyph_set_or_common gA = S)
    (hAB : references_component fg A B) (hB : lookupAL fg.glyphs B = some gB) :
    InReferenceSet fg [S] A ∧ InReferenceSet fg [S] B := by
  have hA' : InReferenceSet fg [S] A :=
    .base A gA hA (by rw [hAset]; exact List.mem_singleton_self S)
  exact ⟨hA', .follow A B gB hA' hAB hB⟩

/-- Witness for C8 at the closure fixture. -/
theorem C8_reference_set_closure_witness :
    InReferenceSet w8fg [str "S"] (str "A") ∧ InReferenceSet w8fg [str "S"] (str "B") :=
  C8_reference_set_closure w8fg (str "S") (str "A") (str "B") w8gA w8gB
    (by decide) (by decide)
    ⟨w8gA, by decide, (str "Regular", w8compLayer), by simp [w8gA],
      ⟨str "B", .identity⟩, by simp [w8compLayer], rfl⟩
    (by decide)

end FG
